import Mathlib

/-!
Shallow embedding of the helioselene test-vector validation tooling
(`tools/validate_test_vectors.py` and `tools/json_to_header.py`), together
with theorems settling the specification claims about it.

Conventions of the embedding:
* Python integers become `ℕ` (where the source value is provably
  non-negative) or `ℤ` (where Python subtraction can go negative); the
  Python `%` on a positive modulus is `Int.emod` / `Nat.mod`.
* Unbounded `while` loops become fuel-indexed functions returning
  `Option`; `none` models a run that does not finish within the fuel.
* A Python function that can raise becomes `Option`-valued, `none`
  modelling the raised exception.
-/

/-- Python `pow(n, k, p)`: modular exponentiation `n ^ k % p`. -/
def powMod (n k p : ℕ) : ℕ := n ^ k % p

/-- The `while q_val % 2 == 0: q_val //= 2; s += 1` loop of `mod_sqrt`,
returning `(q_val, s)`.  The extra `q ≠ 0` guard only makes the recursion
well-founded; the source reaches this loop with `q = p - 1 ≥ 2`, where the
guard never fires. -/
def factorTwo (q : ℕ) : ℕ × ℕ :=
  if h : q ≠ 0 ∧ q % 2 = 0 then
    let r := factorTwo (q / 2)
    (r.1, r.2 + 1)
  else (q, 0)
decreasing_by exact Nat.div_lt_self (Nat.pos_of_ne_zero h.1) one_lt_two

/-- The quadratic non-residue search of `mod_sqrt`:
`z = 2; while pow(z, (p - 1) // 2, p) != p - 1: z += 1`, started at `z`. -/
def findZ (p : ℕ) : ℕ → ℕ → Option ℕ
  | 0, _ => none
  | fuel + 1, z =>
    if powMod z ((p - 1) / 2) p = p - 1 then some z else findZ p fuel (z + 1)

/-- The inner loop of the Tonelli–Shanks iteration:
`i = 1; tmp = (t * t) % p; while tmp != 1: tmp = (tmp * tmp) % p; i += 1`. -/
def tsInner (p : ℕ) : ℕ → ℕ → ℕ → Option ℕ
  | 0, _, _ => none
  | fuel + 1, tmp, i =>
    if tmp = 1 then some i else tsInner p fuel (tmp * tmp % p) (i + 1)

/-- The main `while True` loop of Tonelli–Shanks over the state
`(m, c, t, r)`.  The inner loop receives fuel `m`: for a prime modulus the
loop invariant proved below bounds its exit index by `m - 1`, so this fuel
is sufficient there.  `m - i - 1` is natural subtraction; the invariant
gives `i < m`, matching the source's `1 << (m - i - 1)` (which would raise
on a negative shift, a state never reached for a prime modulus). -/
def tsLoop (p : ℕ) : ℕ → ℕ → ℕ → ℕ → ℕ → Option ℕ
  | 0, _, _, _, _ => none
  | fuel + 1, m, c, t, r =>
    if t = 1 then some r
    else
      match tsInner p m (t * t % p) 1 with
      | none => none
      | some i =>
        let b := powMod c (2 ^ (m - i - 1)) p
        tsLoop p fuel i (b * b % p) (t * b * b % p) (r * b % p)

/-- `mod_sqrt(n, p)` from `validate_test_vectors.py`.  `some (some r)` is a
returned root, `some none` is the source's `None` (no root), and the outer
`none` models the unbounded Tonelli–Shanks loops not finishing within
`fuel` steps (for an odd prime `p`, `fuel = p` is proved sufficient
below).  The `p ≡ 5 (mod 8)` branch computes `(n * v * (i - 1)) % p` over
`ℤ` because `i - 1` can be negative in Python. -/
def modSqrt (fuel n p : ℕ) : Option (Option ℕ) :=
  let n0 := n % p
  if n0 = 0 then some (some 0)
  else if powMod n0 ((p - 1) / 2) p ≠ 1 then some none
  else if p % 4 = 3 then some (some (powMod n0 ((p + 1) / 4) p))
  else if p % 8 = 5 then
    let v := powMod (2 * n0) ((p - 5) / 8) p
    let i := 2 * n0 * v * v % p
    some (some ((((n0 * v : ℕ) : ℤ) * ((i : ℤ) - 1) % (p : ℤ)).toNat))
  else
    let qs := factorTwo (p - 1)
    match findZ p fuel 2 with
    | none => none
    | some z =>
      match tsLoop p fuel qs.2 (powMod z qs.1 p) (powMod n0 qs.1 p)
          (powMod n0 ((qs.1 + 1) / 2) p) with
      | none => none
      | some r => some (some r)

/-- `int.from_bytes(l, 'little')`. -/
def leVal : List ℕ → ℕ
  | [] => 0
  | b :: bs => b + 256 * leVal bs

/-- `n.to_bytes(len, 'little')` (the low `len` little-endian bytes; the
source only applies it to values that fit, where no `OverflowError` can
occur). -/
def toLeBytes : ℕ → ℕ → List ℕ
  | _, 0 => []
  | n, len + 1 => n % 256 :: toLeBytes (n / 256) len

/-- `decode_point_bytes(h, p_field, a, b_curve)`, acting on the 32-byte
little-endian buffer decoded from the hex string `h`.  `some none` is the
source's `None` (identity or rejection); the outer `none` propagates a
non-terminating `mod_sqrt` run (impossible for a prime field, proved
below).  `raw[31] >> 7 & 1` is `/ 128 % 2` and `raw[31] &= 0x7F` is
`% 128`. -/
def decodePointBytes (raw : List ℕ) (pf : ℕ) (a bc : ℤ) : Option (Option (ℕ × ℕ)) :=
  if raw.all (· = 0) then some none
  else
    let b31 := raw.getD 31 0
    let yParity := b31 / 128 % 2
    let x := leVal (raw.set 31 (b31 % 128))
    if pf ≤ x then some none
    else
      let rhs := ((((powMod x 3 pf : ℕ) : ℤ) + a * (x : ℤ) + bc) % (pf : ℤ)).toNat
      match modSqrt pf rhs pf with
      | none => none
      | some none => some none
      | some (some y) => some (some (x, if y % 2 ≠ yParity then pf - y else y))

/-- `encode_point(x, y, p_field)`; `p_field` is unused in the source as
well.  `x_bytes[31] |= 0x80` is bitwise-or with 128. -/
def encodePoint (x y : ℕ) (pf : ℕ) : List ℕ :=
  let xb := toLeBytes x 32
  if y % 2 = 1 then xb.set 31 (xb.getD 31 0 ||| 128) else xb

/-- The `encode` closure of `validate_point_section`: the identity maps to
the all-zero 32-byte buffer, any other point to `encode_point`. -/
def encodeDec (pf : ℕ) : Option (ℕ × ℕ) → List ℕ
  | none => List.replicate 32 0
  | some (x, y) => encodePoint x y pf

/-- Python `pow(x, -1, p)` on a natural number: the modular inverse in
`[0, p)` when `gcd(x, p) = 1`, and `none` when Python raises
`ValueError`. -/
def pyInvMod (x p : ℕ) : Option ℕ :=
  if Nat.gcd x p = 1 then some ((Nat.gcdA x p % (p : ℤ)).toNat) else none

/-- Python `pow(x, -1, p)` on a (possibly negative) integer. -/
def pyInvModInt (x : ℤ) (p : ℕ) : Option ℤ :=
  (pyInvMod (x % (p : ℤ)).toNat p).map (fun y => (y : ℤ))

/-- The expected-output rule of `validate_batch_invert`:
`[pow(x, -1, p) if x != 0 else 0 for x in inputs]`.  `none` models the
`ValueError` raised when a non-zero entry is not invertible mod `p`. -/
def batchInvertRef (inputs : List ℕ) (p : ℕ) : Option (List ℕ) :=
  inputs.mapM (fun x => if x ≠ 0 then pyInvMod x p else some 0)

/-- One step of `while len(l) > 1 and l[-1] == 0: l.pop()`, acting on the
reversed coefficient list. -/
def dropZerosKeepLast : List ℤ → List ℤ
  | [] => []
  | x :: xs => if x = 0 ∧ xs ≠ [] then dropZerosKeepLast xs else x :: xs

/-- `while len(l) > 1 and l[-1] == 0: l.pop()`. -/
def stripTrailing (l : List ℤ) : List ℤ :=
  (dropZerosKeepLast l.reverse).reverse

/-- `poly_mul(a, b, p)`: full convolution accumulated in place. -/
def polyMul (a b : List ℤ) (p : ℕ) : List ℤ :=
  if a = [] ∨ b = [] then [0]
  else
    a.enum.foldl (fun res iai =>
        b.enum.foldl (fun res2 jbj =>
            res2.set (iai.1 + jbj.1)
              ((res2.getD (iai.1 + jbj.1) 0 + iai.2 * jbj.2) % (p : ℤ)))
          res)
      (List.replicate (a.length + b.length - 1) 0)

/-- `poly_add(a, b, p)`. -/
def polyAdd (a b : List ℤ) (p : ℕ) : List ℤ :=
  let r0 := List.replicate (max a.length b.length) (0 : ℤ)
  let r1 := a.enum.foldl (fun r ic => r.set ic.1 ((r.getD ic.1 0 + ic.2) % (p : ℤ))) r0
  let r2 := b.enum.foldl (fun r ic => r.set ic.1 ((r.getD ic.1 0 + ic.2) % (p : ℤ))) r1
  stripTrailing r2

/-- `poly_sub(a, b, p)`. -/
def polySub (a b : List ℤ) (p : ℕ) : List ℤ :=
  let r0 := List.replicate (max a.length b.length) (0 : ℤ)
  let r1 := a.enum.foldl (fun r ic => r.set ic.1 ((r.getD ic.1 0 + ic.2) % (p : ℤ))) r0
  let r2 := b.enum.foldl (fun r ic => r.set ic.1 ((r.getD ic.1 0 - ic.2) % (p : ℤ))) r1
  stripTrailing r2

/-- `poly_from_roots(roots, p)`. -/
def polyFromRoots (roots : List ℤ) (p : ℕ) : List ℤ :=
  roots.foldl (fun result r =>
      result.enum.foldl (fun nw ic =>
          let nw1 := nw.set ic.1 ((nw.getD ic.1 0 - ic.2 * r) % (p : ℤ))
          nw1.set (ic.1 + 1) ((nw1.getD (ic.1 + 1) 0 + ic.2) % (p : ℤ)))
        (List.replicate (result.length + 1) 0))
    [1]

/-- The inner `for j in range(db + 1)` update of `poly_divmod`. -/
def divmodInner (b : List ℤ) (p : ℕ) (qi : ℤ) (i ndb : ℕ) (abuf : List ℤ) : List ℤ :=
  (List.range (ndb + 1)).foldl
    (fun ab j => ab.set (i + j) ((ab.getD (i + j) 0 - qi * b.getD j 0) % (p : ℤ))) abuf

/-- The `for i in range(da - db, -1, -1)` loop of `poly_divmod`; the
counter `cnt` runs the index `i = cnt - 1` down to `0`. -/
def divmodLoop (b : List ℤ) (p : ℕ) (binv : ℤ) (ndb : ℕ) :
    ℕ → List ℤ → List ℤ → List ℤ × List ℤ
  | 0, abuf, q => (abuf, q)
  | cnt + 1, abuf, q =>
    let qi := (abuf.getD (cnt + ndb) 0 * binv) % (p : ℤ)
    divmodLoop b p binv ndb cnt (divmodInner b p qi cnt ndb abuf) (q.set cnt qi)

/-- `poly_divmod(a, b, p)`: quotient and remainder.  `none` models the
`ValueError`/`IndexError` raised when the leading coefficient of `b` is
absent or not invertible. -/
def polyDivmod (a b : List ℤ) (p : ℕ) : Option (List ℤ × List ℤ) :=
  if (a.length : ℤ) - 1 < (b.length : ℤ) - 1 then some ([0], a)
  else
    match b.getLast? with
    | none => none
    | some blead =>
      match pyInvModInt blead p with
      | none => none
      | some binv =>
        let ndb := b.length - 1
        let nda := a.length - 1
        let st := divmodLoop b p binv ndb (nda - ndb + 1) a
          (List.replicate (nda - ndb + 1) 0)
        let rem := if 0 < ndb then st.1.take ndb else [0]
        some (stripTrailing st.2, stripTrailing rem)

/-- `poly_interpolate(xs, ys, p)`: Lagrange interpolation.  `none` models
the `ValueError` raised by `pow(xs[i] - xs[j], -1, p)` on coincident (mod
`p`) samples. -/
def polyInterpolate (xs ys : List ℤ) (p : ℕ) : Option (List ℤ) := do
  let n := xs.length
  let result ← (List.range n).foldlM (fun result i => do
    let basis ← (List.range n).foldlM (fun basis j =>
      if i = j then pure basis
      else do
        let denom ← pyInvModInt (xs.getD i 0 - xs.getD j 0) p
        pure (polyMul basis [(-(xs.getD j 0) * denom) % (p : ℤ), denom] p)) [(1 : ℤ)]
    pure ((List.range basis.length).foldl (fun r k =>
      if k < r.length then r.set k ((r.getD k 0 + ys.getD i 0 * basis.getD k 0) % (p : ℤ))
      else r) result)) (List.replicate n (0 : ℤ))
  pure (stripTrailing result)

/-- Outcome recorded by the `TestRunner` for one vector. -/
inductive Outcome
  | pass
  | fail
deriving DecidableEq

/-- The scalar `from_bytes` check of `validate_scalar_section`. -/
def checkScalarFromBytes (order inp : ℕ) (result : Option ℕ) : Outcome :=
  match result with
  | none => if order ≤ inp then .pass else .fail
  | some expected => if inp < order ∧ inp = expected then .pass else .fail

/-- The point `from_bytes` check of `validate_point_section`.  The outer
`none` propagates a non-terminating decode (impossible for a prime
field). -/
def checkPointFromBytes (pf : ℕ) (a bc : ℤ) (input : List ℕ)
    (result : Option (List ℕ)) : Option Outcome :=
  match result with
  | none => some .pass
  | some resBytes =>
    match decodePointBytes input pf a bc with
    | none => none
    | some none =>
      some (if resBytes = List.replicate 32 0 then .pass else .fail)
    | some (some pt) =>
      some (if encodePoint pt.1 pt.2 pf = resBytes then .pass else .fail)

/-- The point `scalar_mul` check of `validate_point_section`.  The engine
computation (`curve.mul_point` of the external ecpy collaborator, followed
by the section's `encode` closure) is abstracted as `engineResult`; the
source consults it only when the vector's `result` field is non-null. -/
def checkScalarMul (engineResult : List ℕ) (result : Option (List ℕ)) : Outcome :=
  match result with
  | none => .pass
  | some resBytes => if engineResult = resBytes then .pass else .fail

/-- `TestRunner.summary`: the printed total and the returned exit
status, as a function of the three tally counters. -/
def summary (passed failed skipped : ℕ) : ℕ × ℕ :=
  (passed + failed + skipped, if failed = 0 then 0 else 1)

/-- Exit status of `validate_test_vectors.py`: 2 when the `ecpy` import
fails, 2 when `len(sys.argv) != 2`, otherwise the `summary` return
value. -/
def validateExitCode (ecpyOk : Bool) (argc passed failed skipped : ℕ) : ℕ :=
  if ecpyOk = false then 2
  else if argc ≠ 2 then 2
  else (summary passed failed skipped).2

/-- Start-up of `json_to_header.py` `main`: exit 1 when
`len(sys.argv) < 3`; `none` means the generation run proceeds. -/
def headerExitEarly (argc : ℕ) : Option ℕ :=
  if argc < 3 then some 1 else none

/-- Canonical form of a coefficient list: non-empty, and either the last
coefficient is non-zero or the list is exactly `[0]` (spec §3). -/
def Canonical (l : List ℤ) : Prop :=
  l ≠ [] ∧ (l.getLast?.getD 1 ≠ 0 ∨ l = [0])

instance (l : List ℤ) : Decidable (Canonical l) := by
  unfold Canonical; infer_instance

/-- All entries already reduced into `[0, p)`. -/
def InRange (p : ℕ) (l : List ℤ) : Prop :=
  ∀ x ∈ l, 0 ≤ x ∧ x < (p : ℤ)

/-- Interpretation of a coefficient list as a polynomial over `ZMod p`
(index = power of `x`); a proof-side bridge, not part of the embedding. -/
noncomputable def toPoly (p : ℕ) : List ℤ → Polynomial (ZMod p)
  | [] => 0
  | c :: l => Polynomial.C ((c : ℤ) : ZMod p) + Polynomial.X * toPoly p l

/-! ## Helper lemmas on the modular inverse -/

theorem pyInvMod_isSome_of_coprime (x p : ℕ) (h : Nat.gcd x p = 1) :
    pyInvMod x p = some ((Nat.gcdA x p % (p : ℤ)).toNat) := by
  simp [pyInvMod, h]

theorem pyInvMod_lt (x p y : ℕ) (hp : 0 < p) (h : pyInvMod x p = some y) : y < p := by
  by_cases hg : Nat.gcd x p = 1
  · rw [pyInvMod_isSome_of_coprime x p hg, Option.some_inj] at h
    subst h
    have h1 : Nat.gcdA x p % (p : ℤ) < (p : ℤ) :=
      Int.emod_lt_of_pos _ (by exact_mod_cast hp)
    omega
  · simp [pyInvMod, hg] at h

theorem pyInvMod_mul (x p y : ℕ) (hp : 0 < p) (h : pyInvMod x p = some y) :
    x * y % p = 1 % p := by
  by_cases hg : Nat.gcd x p = 1
  · rw [pyInvMod_isSome_of_coprime x p hg, Option.some_inj] at h
    subst h
    have hnn : (0 : ℤ) ≤ Nat.gcdA x p % (p : ℤ) :=
      Int.emod_nonneg _ (by exact_mod_cast hp.ne')
    have key : ((x : ℤ) * (Nat.gcdA x p % (p : ℤ))) % (p : ℤ) = 1 % (p : ℤ) := by
      rw [Int.mul_emod, Int.emod_emod_of_dvd _ dvd_rfl, ← Int.mul_emod]
      have hbezout : (1 : ℤ) = x * Nat.gcdA x p + p * Nat.gcdB x p := by
        have := Nat.gcd_eq_gcd_ab x p
        rw [hg] at this
        exact_mod_cast this
      calc (x : ℤ) * Nat.gcdA x p % p
          = ((x : ℤ) * Nat.gcdA x p + p * Nat.gcdB x p) % p := by
            rw [mul_comm (p : ℤ), Int.add_mul_emod_self]
        _ = 1 % p := by rw [← hbezout]
    have hcast : ((x * ((Nat.gcdA x p % (p : ℤ)).toNat) : ℕ) : ℤ) % (p : ℤ)
        = ((1 : ℕ) : ℤ) % (p : ℤ) := by
      push_cast
      rw [Int.toNat_of_nonneg hnn]
      exact key
    exact_mod_cast hcast
  · simp [pyInvMod, hg] at h

theorem pyInvMod_of_prime (x p : ℕ) (hp : p.Prime) (hx0 : x ≠ 0) (hxp : x < p) :
    ∃ y, pyInvMod x p = some y := by
  refine ⟨_, pyInvMod_isSome_of_coprime x p ?_⟩
  rw [Nat.gcd_comm]
  exact (Nat.Prime.coprime_iff_not_dvd hp).mpr
    (fun hdvd => absurd (Nat.le_of_dvd (Nat.pos_of_ne_zero hx0) hdvd) (not_le.mpr hxp))

/-! ## C7: the Euler-criterion precondition of mod_sqrt -/

/-- C7 counterexample: at `p = 3`, `n = 0` the Euler power
`n ^ ((p - 1) / 2) mod p` is `0 ≠ 1`, yet `mod_sqrt` returns the root `0`
rather than reporting that no root exists. -/
theorem modSqrt_euler_counterexample :
    Nat.Prime 3 ∧ powMod 0 ((3 - 1) / 2) 3 ≠ 1 ∧ modSqrt 3 0 3 ≠ some none := by
  decide

/-- C7 (amended): for every prime `p` and every `n` that is non-zero mod
`p`, if the Euler criterion `n ^ ((p - 1) / 2) ≡ 1 (mod p)` fails then
`mod_sqrt` reports that no root exists, independently of the fuel. -/
theorem modSqrt_euler_reject (fuel n p : ℕ) (hp : p.Prime) (hn : n % p ≠ 0)
    (heuler : powMod n ((p - 1) / 2) p ≠ 1) : modSqrt fuel n p = some none := by
  have hmod : powMod (n % p) ((p - 1) / 2) p = powMod n ((p - 1) / 2) p := by
    unfold powMod
    rw [← Nat.pow_mod]
  unfold modSqrt
  simp only [if_neg hn]
  rw [if_pos (show powMod (n % p) ((p - 1) / 2) p ≠ 1 by rw [hmod]; exact heuler)]

theorem modSqrt_euler_reject_witness : modSqrt 7 3 7 = some none :=
  modSqrt_euler_reject 7 3 7 (by norm_num) (by decide) (by decide)

/-! ## C9: exit codes -/

/-- C9 counterexample: `json_to_header.py` invoked with a single
positional argument (`len(sys.argv) = 2`, a malformed generation-mode
invocation) exits with status 1, not 2 as the claim states. -/
theorem headerExit_counterexample : headerExitEarly 2 = some 1 ∧ (1 : ℕ) ≠ 2 := by
  decide

/-- C9 (amended): the summary prints `total = passed + failed + skipped`
and returns 0 iff the failed count is 0; the reporting engine exits 2
when `ecpy` is missing, exits 2 when `len(sys.argv) ≠ 2`, and otherwise
exits with the summary status; the generation tool exits 1 (not 2) on a
malformed invocation. -/
theorem exit_code_spec :
    (∀ p f s : ℕ, (summary p f s).1 = p + f + s ∧ ((summary p f s).2 = 0 ↔ f = 0)) ∧
    (∀ argc p f s : ℕ, validateExitCode false argc p f s = 2) ∧
    (∀ argc p f s : ℕ, argc ≠ 2 → validateExitCode true argc p f s = 2) ∧
    (∀ p f s : ℕ, validateExitCode true 2 p f s = if f = 0 then 0 else 1) ∧
    (∀ argc : ℕ, argc < 3 → headerExitEarly argc = some 1) := by
  refine ⟨fun p f s => ⟨rfl, ?_⟩, fun argc p f s => rfl, fun argc p f s h => ?_,
    fun p f s => rfl, fun argc h => ?_⟩
  · unfold summary
    by_cases hf : f = 0 <;> simp [hf]
  · simp [validateExitCode, h]
  · simp [headerExitEarly, h]

theorem exit_code_spec_witness :
    validateExitCode true 5 0 1 0 = 2 ∧ headerExitEarly 2 = some 1 :=
  ⟨exit_code_spec.2.2.1 5 0 1 0 (by decide), exit_code_spec.2.2.2.2 2 (by decide)⟩

/-! ## C4: null-result (rejection) vectors -/

/-- C4 counterexample: a point `from_bytes` vector with a null expected
result is recorded as a pass unconditionally, even though the engine's
own decode of the same input produces a point — here over `F_7` with
`y² = x³ + 1` and the encoding of `x = 1`, which decodes to `(1, 4)`. -/
theorem null_vector_counterexample :
    checkPointFromBytes 7 0 1 (1 :: List.replicate 31 0) none = some Outcome.pass ∧
    decodePointBytes (1 :: List.replicate 31 0) 7 0 1 = some (some (1, 4)) ∧
    Outcome.pass ≠ Outcome.fail := by
  decide

/-- C4 (amended): for vectors whose expected output is null, the scalar
`from_bytes` check passes iff the engine agrees the value is out of range
and fails iff the engine accepts it, while the point `from_bytes` and
point `scalar_mul` checks record a pass unconditionally, never consulting
the engine's recomputation. -/
theorem null_vector_checks :
    (∀ order inp : ℕ,
      (checkScalarFromBytes order inp none = Outcome.pass ↔ order ≤ inp) ∧
      (checkScalarFromBytes order inp none = Outcome.fail ↔ inp < order)) ∧
    (∀ pf : ℕ, ∀ a bc : ℤ, ∀ input : List ℕ,
      checkPointFromBytes pf a bc input none = some Outcome.pass) ∧
    (∀ eng : List ℕ, checkScalarMul eng none = Outcome.pass) := by
  refine ⟨fun order inp => ⟨?_, ?_⟩, fun pf a bc input => rfl, fun eng => rfl⟩
  · unfold checkScalarFromBytes
    by_cases h : order ≤ inp <;> simp [h]
  · unfold checkScalarFromBytes
    by_cases h : order ≤ inp <;> simp [h] <;> omega

/-! ## C8: batch inversion -/

/-- C8: the expected-output rule of batch inversion over a prime field:
position `i` maps to `0` when the input there is `0` (not an error), and
to the unique modular inverse in `[0, p)` otherwise. -/
theorem batchInvertRef_cons (x : ℕ) (xs : List ℕ) (p : ℕ) :
    batchInvertRef (x :: xs) p =
      (if x ≠ 0 then pyInvMod x p else some 0).bind
        (fun y => (batchInvertRef xs p).map (fun ys => y :: ys)) := by
  unfold batchInvertRef
  rw [List.mapM_cons]
  cases hx : (if x ≠ 0 then pyInvMod x p else some 0) with
  | none => simp [hx]
  | some y =>
    cases hxs : List.mapM (fun z => if z ≠ 0 then pyInvMod z p else some 0) xs with
    | none => simp [hx, hxs]
    | some ys => simp [hx, hxs]

theorem batchInvertRef_spec (xs : List ℕ) (p : ℕ) (hp : p.Prime)
    (hxs : ∀ x ∈ xs, x < p) :
    ∃ out, batchInvertRef xs p = some out ∧ out.length = xs.length ∧
      ∀ i, i < xs.length →
        (xs.getD i 0 = 0 → out.getD i 0 = 0) ∧
        (xs.getD i 0 ≠ 0 →
          out.getD i 0 < p ∧ xs.getD i 0 * out.getD i 0 % p = 1 % p) := by
  induction xs with
  | nil => exact ⟨[], rfl, rfl, fun i h => absurd h (Nat.not_lt_zero i)⟩
  | cons x xs ih =>
    obtain ⟨out, hout, hlen, hspec⟩ := ih (fun z hz => hxs z (List.mem_cons_of_mem x hz))
    have hx : x < p := hxs x (List.mem_cons_self x xs)
    by_cases hx0 : x = 0
    · refine ⟨0 :: out, ?_, by simpa using hlen, ?_⟩
      · subst hx0
        rw [batchInvertRef_cons]
        simp [hout]
      · intro i hi
        match i with
        | 0 => subst hx0; simp
        | j + 1 =>
          simpa using hspec j (by simpa using hi)
    · obtain ⟨y, hy⟩ := pyInvMod_of_prime x p hp hx0 hx
      refine ⟨y :: out, ?_, by simpa using hlen, ?_⟩
      · rw [batchInvertRef_cons]
        simp [hout, hx0, hy]
      · intro i hi
        match i with
        | 0 =>
          refine ⟨fun h => absurd h (by simpa using hx0), fun _ => ?_⟩
          simpa using ⟨pyInvMod_lt x p y hp.pos hy, pyInvMod_mul x p y hp.pos hy⟩
        | j + 1 =>
          simpa using hspec j (by simpa using hi)

theorem batchInvertRef_spec_witness :
    ∃ out, batchInvertRef [0, 3] 7 = some out ∧ out.length = 2 ∧
      ∀ i, i < 2 →
        ([0, 3].getD i 0 = 0 → out.getD i 0 = 0) ∧
        ([0, 3].getD i 0 ≠ 0 →
          out.getD i 0 < 7 ∧ [0, 3].getD i 0 * out.getD i 0 % 7 = 1 % 7) :=
  batchInvertRef_spec [0, 3] 7 (by norm_num) (by decide)

/-! ## Bridge lemmas: coefficient lists as polynomials over `ZMod p` -/

theorem toPoly_nil (p : ℕ) : toPoly p [] = 0 := rfl

theorem toPoly_cons (p : ℕ) (c : ℤ) (l : List ℤ) :
    toPoly p (c :: l) = Polynomial.C ((c : ℤ) : ZMod p) + Polynomial.X * toPoly p l := rfl

theorem toPoly_coeff (p : ℕ) (l : List ℤ) (k : ℕ) :
    (toPoly p l).coeff k = ((l.getD k 0 : ℤ) : ZMod p) := by
  induction l generalizing k with
  | nil => simp [toPoly_nil]
  | cons c l ih =>
    cases k with
    | zero => simp [toPoly_cons, Polynomial.mul_coeff_zero]
    | succ k =>
      rw [toPoly_cons, Polynomial.coeff_add, Polynomial.coeff_X_mul, ih,
        Polynomial.coeff_C, List.getD_cons_succ]
      simp

theorem toPoly_degree_lt (p : ℕ) (l : List ℤ) : (toPoly p l).degree < l.length := by
  rw [Polynomial.degree_lt_iff_coeff_zero]
  intro m hm
  rw [toPoly_coeff, List.getD_eq_default _ _ hm]
  simp

theorem toPoly_append (p : ℕ) (l1 l2 : List ℤ) :
    toPoly p (l1 ++ l2) = toPoly p l1 + Polynomial.X ^ l1.length * toPoly p l2 := by
  induction l1 with
  | nil => simp [toPoly_nil]
  | cons c l ih =>
    simp only [List.cons_append, toPoly_cons, ih, List.length_cons, pow_succ]
    ring

theorem toPoly_eq_zero_of_all_zero (p : ℕ) (l : List ℤ) (h : ∀ x ∈ l, x = 0) :
    toPoly p l = 0 := by
  induction l with
  | nil => rfl
  | cons c l ih =>
    rw [toPoly_cons, h c (List.mem_cons_self c l),
      ih (fun x hx => h x (List.mem_cons_of_mem c hx))]
    simp

theorem toPoly_replicate_zero (p k : ℕ) : toPoly p (List.replicate k 0) = 0 :=
  toPoly_eq_zero_of_all_zero p _ (fun _ hx => List.eq_of_mem_replicate hx)

theorem dropZerosKeepLast_decomp (l : List ℤ) :
    ∃ k, l = List.replicate k 0 ++ dropZerosKeepLast l := by
  induction l with
  | nil => exact ⟨0, rfl⟩
  | cons x xs ih =>
    by_cases h : x = 0 ∧ xs ≠ []
    · obtain ⟨k, hk⟩ := ih
      refine ⟨k + 1, ?_⟩
      have hd : dropZerosKeepLast (x :: xs) = dropZerosKeepLast xs := by
        simp only [dropZerosKeepLast, if_pos h]
      rw [hd, h.1, List.replicate_succ, List.cons_append]
      exact congrArg (0 :: ·) hk
    · exact ⟨0, by simp only [dropZerosKeepLast, if_neg h, List.replicate, List.nil_append]⟩

theorem stripTrailing_decomp (l : List ℤ) :
    ∃ k, l = stripTrailing l ++ List.replicate k 0 := by
  obtain ⟨k, hk⟩ := dropZerosKeepLast_decomp l.reverse
  refine ⟨k, ?_⟩
  have h2 := congrArg List.reverse hk
  simpa [stripTrailing] using h2

theorem toPoly_stripTrailing (p : ℕ) (l : List ℤ) :
    toPoly p (stripTrailing l) = toPoly p l := by
  obtain ⟨k, hk⟩ := stripTrailing_decomp l
  conv_rhs => rw [hk]
  rw [toPoly_append, toPoly_replicate_zero, mul_zero, add_zero]

theorem inRange_stripTrailing (p : ℕ) (l : List ℤ) (h : InRange p l) :
    InRange p (stripTrailing l) := by
  obtain ⟨k, hk⟩ := stripTrailing_decomp l
  intro x hx
  exact h x (by rw [hk]; exact List.mem_append_left _ hx)

theorem dropZerosKeepLast_spec (l : List ℤ) (h : l ≠ []) :
    dropZerosKeepLast l ≠ [] ∧
      ((dropZerosKeepLast l).headI ≠ 0 ∨ (dropZerosKeepLast l).length = 1) := by
  induction l with
  | nil => exact absurd rfl h
  | cons x xs ih =>
    by_cases hc : x = 0 ∧ xs ≠ []
    · simpa [dropZerosKeepLast, hc] using ih hc.2
    · simp only [dropZerosKeepLast, if_neg hc]
      refine ⟨by simp, ?_⟩
      rcases not_and_or.mp hc with h0 | hxs
      · exact Or.inl (by simpa using h0)
      · right
        rw [not_not.mp hxs]
        rfl

theorem stripTrailing_canonical (l : List ℤ) (h : l ≠ []) :
    Canonical (stripTrailing l) := by
  have hrev : l.reverse ≠ [] := by simpa using h
  obtain ⟨hne, hspec⟩ := dropZerosKeepLast_spec l.reverse hrev
  obtain ⟨c, rest, hd⟩ := List.exists_cons_of_ne_nil hne
  constructor
  · simpa [stripTrailing] using hne
  · rcases hspec with h0 | h1
    · left
      rw [stripTrailing, hd, List.getLast?_reverse]
      simpa [hd] using h0
    · rw [hd] at h1
      have hrest : rest = [] := by simpa using h1
      rw [stripTrailing, hd, hrest]
      by_cases hc0 : c = 0
      · exact Or.inr (by rw [hc0]; rfl)
      · exact Or.inl (by simpa using hc0)

theorem int_cast_inj_of_range (p : ℕ) {x y : ℤ} (hx0 : 0 ≤ x) (hxp : x < p)
    (hy0 : 0 ≤ y) (hyp : y < p) (h : ((x : ℤ) : ZMod p) = ((y : ℤ) : ZMod p)) :
    x = y := by
  rw [ZMod.intCast_eq_intCast_iff'] at h
  rwa [Int.emod_eq_of_lt hx0 hxp, Int.emod_eq_of_lt hy0 hyp] at h

theorem inRange_getD (p : ℕ) (l : List ℤ) (hp : 0 < p) (h : InRange p l) (k : ℕ) :
    0 ≤ l.getD k 0 ∧ l.getD k 0 < (p : ℤ) := by
  by_cases hk : k < l.length
  · rw [List.getD_eq_getElem _ _ hk]
    exact h _ (List.getElem_mem hk)
  · rw [List.getD_eq_default _ _ (le_of_not_lt hk)]
    exact ⟨le_refl 0, by exact_mod_cast hp⟩

theorem toPoly_inj (p : ℕ) (hp : 0 < p) (l1 l2 : List ℤ) (c1 : Canonical l1)
    (c2 : Canonical l2) (r1 : InRange p l1) (r2 : InRange p l2)
    (h : toPoly p l1 = toPoly p l2) : l1 = l2 := by
  have hent : ∀ k, l1.getD k 0 = l2.getD k 0 := by
    intro k
    have hc := congrArg (fun f => Polynomial.coeff f k) h
    simp only [toPoly_coeff] at hc
    exact int_cast_inj_of_range p (inRange_getD p l1 hp r1 k).1
      (inRange_getD p l1 hp r1 k).2 (inRange_getD p l2 hp r2 k).1
      (inRange_getD p l2 hp r2 k).2 hc
  have key : ∀ a b : List ℤ, Canonical a → Canonical b →
      (∀ k, a.getD k 0 = b.getD k 0) → a.length < b.length → False := by
    intro a b ca cb he hlt
    have hbne := cb.1
    have hpos : 0 < b.length := List.length_pos.mpr hbne
    rcases cb.2 with hlast | hb0
    · have h1 : a.getD (b.length - 1) 0 = 0 := List.getD_eq_default _ _ (by omega)
      have h2 : b.getD (b.length - 1) 0 = b.getLast hbne := by
        rw [List.getD_eq_getElem _ _ (by omega), List.getLast_eq_getElem]
      have h3 := he (b.length - 1)
      rw [h1, h2] at h3
      rw [List.getLast?_eq_getLast_of_ne_nil hbne] at hlast
      exact hlast (by rw [Option.getD_some, ← h3])
    · rw [hb0] at hlt
      have : a = [] := List.length_eq_zero.mp (by simpa using hlt)
      exact ca.1 this
  have hlen : l1.length = l2.length := by
    rcases Nat.lt_trichotomy l1.length l2.length with hlt | he | hgt
    · exact absurd hlt (fun hh => key l1 l2 c1 c2 hent hh)
    · exact he
    · exact absurd hgt (fun hh => key l2 l1 c2 c1 (fun k => (hent k).symm) hh)
  refine List.ext_getElem hlen (fun i h1 h2 => ?_)
  have h3 := hent i
  rwa [List.getD_eq_getElem _ _ h1, List.getD_eq_getElem _ _ h2] at h3

theorem entry_ne_zero_cast (p : ℕ) {x : ℤ} (hx0 : 0 ≤ x) (hxp : x < p)
    (hx : x ≠ 0) : ((x : ℤ) : ZMod p) ≠ 0 := by
  intro h0
  rw [ZMod.intCast_zmod_eq_zero_iff_dvd] at h0
  have hz := Int.emod_eq_zero_of_dvd h0
  have hx2 := Int.emod_eq_of_lt hx0 hxp
  omega

theorem canonical_getLast_ne_zero (l : List ℤ) (hc : Canonical l) (hne : l ≠ [0]) :
    l.getLast hc.1 ≠ 0 := by
  rcases hc.2 with hlast | hb0
  · rwa [List.getLast?_eq_getLast_of_ne_nil hc.1, Option.getD_some] at hlast
  · exact absurd hb0 hne

theorem toPoly_degree_canonical (p : ℕ) (hp : 0 < p) (l : List ℤ) (hc : Canonical l)
    (hr : InRange p l) (hne : l ≠ [0]) :
    (toPoly p l).coeff (l.length - 1) ≠ 0 ∧
      (toPoly p l).degree = (l.length - 1 : ℕ) ∧ toPoly p l ≠ 0 := by
  have hlne := hc.1
  have hpos : 0 < l.length := List.length_pos.mpr hlne
  have hlast := canonical_getLast_ne_zero l hc hne
  have hrange := hr _ (List.getLast_mem hlne)
  have hcoeff : (toPoly p l).coeff (l.length - 1) = ((l.getLast hlne : ℤ) : ZMod p) := by
    rw [toPoly_coeff, List.getD_eq_getElem _ _ (by omega), List.getLast_eq_getElem]
  have hcast := entry_ne_zero_cast p hrange.1 hrange.2 hlast
  have hco : (toPoly p l).coeff (l.length - 1) ≠ 0 := by rw [hcoeff]; exact hcast
  refine ⟨hco, ?_, ?_⟩
  · apply Polynomial.degree_eq_of_le_of_coeff_ne_zero _ hco
    rw [Polynomial.degree_le_iff_coeff_zero]
    intro m hm
    have hm3 : l.length - 1 < m := by exact_mod_cast hm
    rw [toPoly_coeff, List.getD_eq_default _ _ (by omega)]
    simp
  · intro h0
    rw [h0] at hco
    simp at hco

theorem intCast_emod_zmod (p : ℕ) (x : ℤ) :
    ((x % (p : ℤ) : ℤ) : ZMod p) = ((x : ℤ) : ZMod p) := by
  rw [ZMod.intCast_eq_intCast_iff']
  exact Int.emod_emod_of_dvd x dvd_rfl

theorem getD_set_lemma (r : List ℤ) (idx k : ℕ) (w : ℤ) (hidx : idx < r.length) :
    (r.set idx w).getD k 0 = if idx = k then w else r.getD k 0 := by
  by_cases h : idx = k
  · subst h
    rw [if_pos rfl, List.getD_eq_getElem _ _ (by simpa using hidx)]
    simp
  · rw [if_neg h]
    by_cases hk : k < r.length
    · rw [List.getD_eq_getElem _ _ (by simpa using hk),
        List.getD_eq_getElem _ _ hk, List.getElem_set_ne h]
    · rw [List.getD_eq_default _ _ (by simpa using le_of_not_lt hk),
        List.getD_eq_default _ _ (le_of_not_lt hk)]

theorem toPoly_set_emod (p : ℕ) (r : List ℤ) (idx : ℕ) (v : ℤ)
    (hidx : idx < r.length) :
    toPoly p (r.set idx ((r.getD idx 0 + v) % (p : ℤ))) =
      toPoly p r + Polynomial.C ((v : ℤ) : ZMod p) * Polynomial.X ^ idx := by
  apply Polynomial.ext
  intro k
  rw [Polynomial.coeff_add, toPoly_coeff, toPoly_coeff, Polynomial.coeff_C_mul,
    Polynomial.coeff_X_pow, getD_set_lemma r idx k _ hidx]
  by_cases h : idx = k
  · subst h
    rw [if_pos rfl, if_pos rfl, intCast_emod_zmod, Int.cast_add, mul_one]
  · rw [if_neg h, if_neg (fun hh => h hh.symm), mul_zero, add_zero]

theorem inRange_set_emod (p : ℕ) (hp : 0 < p) (r : List ℤ) (idx : ℕ) (x : ℤ)
    (h : InRange p r) : InRange p (r.set idx (x % (p : ℤ))) := by
  intro y hy
  rcases List.mem_or_eq_of_mem_set hy with h1 | h2
  · exact h y h1
  · subst h2
    exact ⟨Int.emod_nonneg x (by exact_mod_cast hp.ne'),
      Int.emod_lt_of_pos x (by exact_mod_cast hp)⟩

theorem inRange_replicate_zero (p : ℕ) (hp : 0 < p) (n : ℕ) :
    InRange p (List.replicate n (0 : ℤ)) := by
  intro x hx
  rw [List.eq_of_mem_replicate hx]
  exact ⟨le_refl 0, by exact_mod_cast hp⟩

/-! ## Generic fold helpers -/

theorem foldl_preserve {α β : Type} (P : β → Prop) (f : β → α → β)
    (hf : ∀ b a, P b → P (f b a)) :
    ∀ (l : List α) (init : β), P init → P (l.foldl f init) := by
  intro l
  induction l with
  | nil => intro init h; exact h
  | cons x xs ih => intro init h; exact ih (f init x) (hf init x h)

theorem foldlM_option_preserve {α β : Type} (P : β → Prop) (f : β → α → Option β)
    (hf : ∀ b a b2, f b a = some b2 → P b → P b2) :
    ∀ (l : List α) (init : β), P init → ∀ res, l.foldlM f init = some res → P res := by
  intro l
  induction l with
  | nil =>
    intro init h res hres
    simp only [List.foldlM_nil] at hres
    cases hres
    exact h
  | cons x xs ih =>
    intro init h res hres
    rw [List.foldlM_cons] at hres
    cases hfx : f init x with
    | none => rw [hfx] at hres; cases hres
    | some b2 =>
      rw [hfx] at hres
      simp only [Option.bind_eq_bind, Option.some_bind] at hres
      exact ih b2 (hf init x b2 hfx h) res hres

theorem list_enum_eq {α : Type} (l : List α) : l.enum = List.enumFrom 0 l := rfl

theorem getD_replicate_zero (n k : ℕ) : (List.replicate n (0 : ℤ)).getD k 0 = 0 := by
  by_cases h : k < n
  · rw [List.getD_eq_getElem _ _ (by simpa using h)]
    simp
  · rw [List.getD_eq_default _ _ (by simpa using le_of_not_lt h)]

/-! ## The poly_add / poly_sub accumulation loops -/

theorem addFold_toPoly (p : ℕ) (as : List ℤ) :
    ∀ (i0 : ℕ) (r : List ℤ), i0 + as.length ≤ r.length →
      toPoly p ((List.enumFrom i0 as).foldl
          (fun r ic => r.set ic.1 ((r.getD ic.1 0 + ic.2) % (p : ℤ))) r)
        = toPoly p r + Polynomial.X ^ i0 * toPoly p as := by
  induction as with
  | nil => intro i0 r _; simp [toPoly_nil]
  | cons c cs ih =>
    intro i0 r h
    rw [List.enumFrom, List.foldl_cons]
    have hi0 : i0 < r.length := by simp only [List.length_cons] at h; omega
    have hlen1 : (r.set i0 ((r.getD i0 0 + c) % (p : ℤ))).length = r.length :=
      List.length_set r i0 _
    rw [ih (i0 + 1) _ (by rw [hlen1]; simp only [List.length_cons] at h; omega)]
    rw [toPoly_set_emod p r i0 c hi0, toPoly_cons]
    ring

theorem subFold_toPoly (p : ℕ) (as : List ℤ) :
    ∀ (i0 : ℕ) (r : List ℤ), i0 + as.length ≤ r.length →
      toPoly p ((List.enumFrom i0 as).foldl
          (fun r ic => r.set ic.1 ((r.getD ic.1 0 - ic.2) % (p : ℤ))) r)
        = toPoly p r - Polynomial.X ^ i0 * toPoly p as := by
  induction as with
  | nil => intro i0 r _; simp [toPoly_nil]
  | cons c cs ih =>
    intro i0 r h
    rw [List.enumFrom, List.foldl_cons]
    have hi0 : i0 < r.length := by simp only [List.length_cons] at h; omega
    have hlen1 : (r.set i0 ((r.getD i0 0 - c) % (p : ℤ))).length = r.length :=
      List.length_set r i0 _
    rw [ih (i0 + 1) _ (by rw [hlen1]; simp only [List.length_cons] at h; omega)]
    have hsub : r.getD i0 0 - c = r.getD i0 0 + (-c) := by ring
    rw [hsub, toPoly_set_emod p r i0 (-c) hi0, toPoly_cons]
    push_cast
    rw [Polynomial.C_neg]
    ring

theorem setFold_length {α : Type} (f : List ℤ → α → List ℤ)
    (hf : ∀ r a, (f r a).length = r.length) (l : List α) (init : List ℤ) :
    (l.foldl f init).length = init.length :=
  foldl_preserve (fun r => r.length = init.length) f
    (fun b a hb => by
      show (f b a).length = init.length
      rw [hf b a]
      exact hb) l init rfl

theorem polyAdd_spec (p : ℕ) (hp : 0 < p) (a b : List ℤ) :
    toPoly p (polyAdd a b p) = toPoly p a + toPoly p b ∧
      InRange p (polyAdd a b p) ∧
      (¬(a = [] ∧ b = []) → Canonical (polyAdd a b p)) := by
  unfold polyAdd
  rw [list_enum_eq a, list_enum_eq b]
  have hlen1 : ((List.enumFrom 0 a).foldl
      (fun r ic => r.set ic.1 ((r.getD ic.1 0 + ic.2) % (p : ℤ)))
      (List.replicate (max a.length b.length) (0 : ℤ))).length
      = max a.length b.length :=
    (setFold_length
      (fun (r : List ℤ) (ic : ℕ × ℤ) => r.set ic.1 ((r.getD ic.1 0 + ic.2) % (p : ℤ)))
      (fun r ic => List.length_set r _ _) (List.enumFrom 0 a)
      (List.replicate (max a.length b.length) (0 : ℤ))).trans
      (List.length_replicate _ _)
  have h1 := addFold_toPoly p a 0 (List.replicate (max a.length b.length) (0 : ℤ))
    (by simp)
  have h2 := addFold_toPoly p b 0
    ((List.enumFrom 0 a).foldl
      (fun r ic => r.set ic.1 ((r.getD ic.1 0 + ic.2) % (p : ℤ)))
      (List.replicate (max a.length b.length) (0 : ℤ)))
    (by rw [hlen1]; simp)
  have hlen2 : ((List.enumFrom 0 b).foldl
      (fun r ic => r.set ic.1 ((r.getD ic.1 0 + ic.2) % (p : ℤ)))
      ((List.enumFrom 0 a).foldl
        (fun r ic => r.set ic.1 ((r.getD ic.1 0 + ic.2) % (p : ℤ)))
        (List.replicate (max a.length b.length) (0 : ℤ)))).length
      = max a.length b.length :=
    (setFold_length
      (fun (r : List ℤ) (ic : ℕ × ℤ) => r.set ic.1 ((r.getD ic.1 0 + ic.2) % (p : ℤ)))
      (fun r ic => List.length_set r _ _) (List.enumFrom 0 b) _).trans hlen1
  have hr0 : InRange p (List.replicate (max a.length b.length) (0 : ℤ)) :=
    inRange_replicate_zero p hp _
  have hr1 := foldl_preserve (InRange p)
    (fun (r : List ℤ) (ic : ℕ × ℤ) => r.set ic.1 ((r.getD ic.1 0 + ic.2) % (p : ℤ)))
    (fun r ic hr => inRange_set_emod p hp r ic.1 _ hr) (List.enumFrom 0 a) _ hr0
  have hr2 := foldl_preserve (InRange p)
    (fun (r : List ℤ) (ic : ℕ × ℤ) => r.set ic.1 ((r.getD ic.1 0 + ic.2) % (p : ℤ)))
    (fun r ic hr => inRange_set_emod p hp r ic.1 _ hr) (List.enumFrom 0 b) _ hr1
  refine ⟨?_, inRange_stripTrailing p _ hr2, ?_⟩
  · rw [toPoly_stripTrailing, h2, h1, toPoly_replicate_zero]
    ring
  · intro hne
    apply stripTrailing_canonical
    intro hnil
    have hc := congrArg List.length hnil
    rw [hlen2] at hc
    simp only [List.length_nil] at hc
    rcases Nat.max_eq_zero_iff.mp hc with ⟨ha, hb⟩
    exact hne ⟨List.length_eq_zero.mp ha, List.length_eq_zero.mp hb⟩

theorem polySub_spec (p : ℕ) (hp : 0 < p) (a b : List ℤ) :
    toPoly p (polySub a b p) = toPoly p a - toPoly p b ∧
      InRange p (polySub a b p) ∧
      (¬(a = [] ∧ b = []) → Canonical (polySub a b p)) := by
  unfold polySub
  rw [list_enum_eq a, list_enum_eq b]
  have hlen1 : ((List.enumFrom 0 a).foldl
      (fun r ic => r.set ic.1 ((r.getD ic.1 0 + ic.2) % (p : ℤ)))
      (List.replicate (max a.length b.length) (0 : ℤ))).length
      = max a.length b.length :=
    (setFold_length
      (fun (r : List ℤ) (ic : ℕ × ℤ) => r.set ic.1 ((r.getD ic.1 0 + ic.2) % (p : ℤ)))
      (fun r ic => List.length_set r _ _) (List.enumFrom 0 a)
      (List.replicate (max a.length b.length) (0 : ℤ))).trans
      (List.length_replicate _ _)
  have h1 := addFold_toPoly p a 0 (List.replicate (max a.length b.length) (0 : ℤ))
    (by simp)
  have h2 := subFold_toPoly p b 0
    ((List.enumFrom 0 a).foldl
      (fun r ic => r.set ic.1 ((r.getD ic.1 0 + ic.2) % (p : ℤ)))
      (List.replicate (max a.length b.length) (0 : ℤ)))
    (by rw [hlen1]; simp)
  have hlen2 : ((List.enumFrom 0 b).foldl
      (fun r ic => r.set ic.1 ((r.getD ic.1 0 - ic.2) % (p : ℤ)))
      ((List.enumFrom 0 a).foldl
        (fun r ic => r.set ic.1 ((r.getD ic.1 0 + ic.2) % (p : ℤ)))
        (List.replicate (max a.length b.length) (0 : ℤ)))).length
      = max a.length b.length :=
    (setFold_length
      (fun (r : List ℤ) (ic : ℕ × ℤ) => r.set ic.1 ((r.getD ic.1 0 - ic.2) % (p : ℤ)))
      (fun r ic => List.length_set r _ _) (List.enumFrom 0 b) _).trans hlen1
  have hr0 : InRange p (List.replicate (max a.length b.length) (0 : ℤ)) :=
    inRange_replicate_zero p hp _
  have hr1 := foldl_preserve (InRange p)
    (fun (r : List ℤ) (ic : ℕ × ℤ) => r.set ic.1 ((r.getD ic.1 0 + ic.2) % (p : ℤ)))
    (fun r ic hr => inRange_set_emod p hp r ic.1 _ hr) (List.enumFrom 0 a) _ hr0
  have hr2 := foldl_preserve (InRange p)
    (fun (r : List ℤ) (ic : ℕ × ℤ) => r.set ic.1 ((r.getD ic.1 0 - ic.2) % (p : ℤ)))
    (fun r ic hr => inRange_set_emod p hp r ic.1 _ hr) (List.enumFrom 0 b) _ hr1
  refine ⟨?_, inRange_stripTrailing p _ hr2, ?_⟩
  · rw [toPoly_stripTrailing, h2, h1, toPoly_replicate_zero]
    ring
  · intro hne
    apply stripTrailing_canonical
    intro hnil
    have hc := congrArg List.length hnil
    rw [hlen2] at hc
    simp only [List.length_nil] at hc
    rcases Nat.max_eq_zero_iff.mp hc with ⟨ha, hb⟩
    exact hne ⟨List.length_eq_zero.mp ha, List.length_eq_zero.mp hb⟩

/-! ## The poly_mul convolution loops -/

theorem mulInnerFold_toPoly (p : ℕ) (i : ℕ) (ai : ℤ) (bs : List ℤ) :
    ∀ (j0 : ℕ) (res : List ℤ), i + j0 + bs.length ≤ res.length →
      toPoly p ((List.enumFrom j0 bs).foldl
          (fun res2 jbj => res2.set (i + jbj.1)
            ((res2.getD (i + jbj.1) 0 + ai * jbj.2) % (p : ℤ))) res)
        = toPoly p res + Polynomial.C ((ai : ℤ) : ZMod p) * Polynomial.X ^ i *
            (Polynomial.X ^ j0 * toPoly p bs) := by
  induction bs with
  | nil => intro j0 res _; simp [toPoly_nil]
  | cons c cs ih =>
    intro j0 res h
    rw [List.enumFrom, List.foldl_cons]
    have hij : i + j0 < res.length := by simp only [List.length_cons] at h; omega
    have hlen1 := List.length_set res (i + j0) ((res.getD (i + j0) 0 + ai * c) % (p : ℤ))
    rw [ih (j0 + 1) _ (by rw [hlen1]; simp only [List.length_cons] at h; omega)]
    rw [toPoly_set_emod p res (i + j0) (ai * c) hij, toPoly_cons]
    push_cast
    rw [Polynomial.C_mul]
    ring

theorem mulOuterFold_toPoly (p : ℕ) (b : List ℤ) (as : List ℤ) :
    ∀ (i0 : ℕ) (res : List ℤ), i0 + as.length + b.length ≤ res.length + 1 →
      toPoly p ((List.enumFrom i0 as).foldl
          (fun res iai => (List.enumFrom 0 b).foldl
            (fun res2 jbj => res2.set (iai.1 + jbj.1)
              ((res2.getD (iai.1 + jbj.1) 0 + iai.2 * jbj.2) % (p : ℤ))) res) res)
        = toPoly p res + Polynomial.X ^ i0 * toPoly p as * toPoly p b := by
  induction as with
  | nil => intro i0 res _; simp [toPoly_nil]
  | cons c cs ih =>
    intro i0 res h
    rw [List.enumFrom, List.foldl_cons]
    dsimp only
    have hinner := mulInnerFold_toPoly p i0 c b 0 res
      (by simp only [List.length_cons] at h; omega)
    have hlenI : ((List.enumFrom 0 b).foldl
        (fun res2 jbj => res2.set (i0 + jbj.1)
          ((res2.getD (i0 + jbj.1) 0 + c * jbj.2) % (p : ℤ))) res).length = res.length :=
      setFold_length _ (fun r jbj => List.length_set r _ _) _ _
    rw [ih (i0 + 1) _ (by rw [hlenI]; simp only [List.length_cons] at h; omega)]
    rw [hinner, toPoly_cons]
    ring

theorem polyMul_spec (p : ℕ) (hp : 0 < p) (a b : List ℤ) (ha : a ≠ []) (hb : b ≠ []) :
    (polyMul a b p).length = a.length + b.length - 1 ∧
      toPoly p (polyMul a b p) = toPoly p a * toPoly p b ∧
      InRange p (polyMul a b p) := by
  unfold polyMul
  rw [if_neg (by simp [ha, hb])]
  rw [list_enum_eq a, list_enum_eq b]
  have hA : 0 < a.length := List.length_pos.mpr ha
  have hB : 0 < b.length := List.length_pos.mpr hb
  refine ⟨?_, ?_, ?_⟩
  · exact (setFold_length _
      (fun r iai => setFold_length _ (fun r2 jbj => List.length_set r2 _ _) _ r) _ _).trans
      (List.length_replicate _ _)
  · rw [mulOuterFold_toPoly p b a 0 (List.replicate (a.length + b.length - 1) (0 : ℤ))
      (by rw [List.length_replicate]; omega)]
    rw [toPoly_replicate_zero, pow_zero]
    ring
  · exact foldl_preserve (InRange p) _
      (fun r iai hr => foldl_preserve (InRange p) _
        (fun r2 jbj hr2 => inRange_set_emod p hp r2 _ _ hr2) _ r hr)
      _ _ (inRange_replicate_zero p hp _)

theorem canonical_of_getLast_ne (l : List ℤ) (h : l ≠ [])
    (hl : l.getD (l.length - 1) 0 ≠ 0) : Canonical l := by
  have hpos : 0 < l.length := List.length_pos.mpr h
  refine ⟨h, Or.inl ?_⟩
  rw [List.getLast?_eq_getLast_of_ne_nil h, Option.getD_some]
  rwa [List.getD_eq_getElem _ _ (by omega), ← List.getLast_eq_getElem l h] at hl

theorem polyMul_canonical (p : ℕ) (hp : p.Prime) (a b : List ℤ)
    (ca : Canonical a) (cb : Canonical b) (ra : InRange p a) (rb : InRange p b)
    (ha : a ≠ [0]) (hb : b ≠ [0]) : Canonical (polyMul a b p) := by
  haveI : Fact p.Prime := ⟨hp⟩
  obtain ⟨hlen, htp, hrr⟩ := polyMul_spec p hp.pos a b ca.1 cb.1
  have hA := toPoly_degree_canonical p hp.pos a ca ra ha
  have hB := toPoly_degree_canonical p hp.pos b cb rb hb
  have hApos : 0 < a.length := List.length_pos.mpr ca.1
  have hBpos : 0 < b.length := List.length_pos.mpr cb.1
  have hdeg : (toPoly p a * toPoly p b).degree = ((a.length + b.length - 2 : ℕ) : WithBot ℕ) := by
    rw [Polynomial.degree_mul, hA.2.1, hB.2.1]
    rw [← Nat.cast_add]
    congr 1
    omega
  have hco : (toPoly p a * toPoly p b).coeff (a.length + b.length - 2) ≠ 0 :=
    Polynomial.coeff_ne_zero_of_eq_degree hdeg
  apply canonical_of_getLast_ne _ (by
    intro hnil
    have := congrArg List.length hnil
    rw [hlen] at this
    simp only [List.length_nil] at this
    omega)
  rw [hlen]
  intro h0
  rw [← htp, toPoly_coeff] at hco
  have heq : a.length + b.length - 1 - 1 = a.length + b.length - 2 := by omega
  rw [heq] at h0
  rw [h0] at hco
  exact hco (by simp)

/-- C5 counterexample: with both inputs canonical, `poly_mul [0] [3, 4] 7`
returns `[0, 0]`, a zero polynomial that is not the canonical `[0]`; and
`poly_interpolate` on the empty sample list returns `[]`, also not
canonical. -/
theorem canonical_counterexample :
    (Canonical [(0 : ℤ)] ∧ Canonical [(3 : ℤ), 4] ∧
      polyMul [0] [3, 4] 7 = [0, 0] ∧ ¬Canonical [(0 : ℤ), 0]) ∧
    (polyInterpolate [] [] 7 = some [] ∧ ¬Canonical ([] : List ℤ)) := by
  constructor
  · refine ⟨by decide, by decide, by decide, by decide⟩
  · exact ⟨rfl, by decide⟩

/-! ## poly_from_roots: monicity of the accumulated product -/

theorem fromRootsFold_getLast (p : ℕ) (r : ℤ) (cs : List ℤ) :
    ∀ (j0 : ℕ) (nw : List ℤ), j0 + cs.length < nw.length → cs ≠ [] →
      nw.getD (j0 + cs.length) 0 = 0 →
      ((List.enumFrom j0 cs).foldl
          (fun nw ic =>
            let nw1 := nw.set ic.1 ((nw.getD ic.1 0 - ic.2 * r) % (p : ℤ))
            nw1.set (ic.1 + 1) ((nw1.getD (ic.1 + 1) 0 + ic.2) % (p : ℤ))) nw).getD
        (j0 + cs.length) 0
        = (0 + cs.getD (cs.length - 1) 0) % (p : ℤ) := by
  induction cs with
  | nil => intro j0 nw _ hne _; exact absurd rfl hne
  | cons c cs ih =>
    intro j0 nw hlen _ hzero
    rw [List.enumFrom, List.foldl_cons]
    dsimp only
    by_cases hcs : cs = []
    · subst hcs
      simp only [List.enumFrom, List.foldl_nil, List.length_cons, List.length_nil]
      have h1 : j0 < nw.length := by simp only [List.length_cons] at hlen; omega
      have h2 : (nw.set j0 ((nw.getD j0 0 - c * r) % (p : ℤ))).length = nw.length :=
        List.length_set nw j0 _
      have h3 : j0 + 1 < (nw.set j0 ((nw.getD j0 0 - c * r) % (p : ℤ))).length := by
        rw [h2]; simp only [List.length_cons] at hlen; omega
      rw [getD_set_lemma _ (j0 + 1) (j0 + 1) _ h3, if_pos rfl]
      rw [getD_set_lemma nw j0 (j0 + 1) _ h1, if_neg (by omega)]
      simp only [List.length_cons, List.length_nil] at hzero ⊢
      rw [show j0 + (0 + 1) = j0 + 1 by omega] at hzero
      rw [hzero]
      simp
    · have hlen2 : j0 + 1 + cs.length < nw.length := by
        simp only [List.length_cons] at hlen; omega
      have hpos : 0 < cs.length := List.length_pos.mpr hcs
      have hstep1 : (nw.set j0 ((nw.getD j0 0 - c * r) % (p : ℤ))).length = nw.length :=
        List.length_set nw j0 _
      have hstep2len :
          ((nw.set j0 ((nw.getD j0 0 - c * r) % (p : ℤ))).set (j0 + 1)
            (((nw.set j0 ((nw.getD j0 0 - c * r) % (p : ℤ))).getD (j0 + 1) 0 + c)
              % (p : ℤ))).length = nw.length := by
        rw [List.length_set, hstep1]
      have hz2 : ((nw.set j0 ((nw.getD j0 0 - c * r) % (p : ℤ))).set (j0 + 1)
          (((nw.set j0 ((nw.getD j0 0 - c * r) % (p : ℤ))).getD (j0 + 1) 0 + c)
            % (p : ℤ))).getD (j0 + 1 + cs.length) 0 = 0 := by
        rw [getD_set_lemma _ (j0 + 1) _ _ (by rw [hstep1]; omega), if_neg (by omega)]
        rw [getD_set_lemma nw j0 _ _ (by omega), if_neg (by omega)]
        rw [show j0 + 1 + cs.length = j0 + (c :: cs).length by (simp only [List.length_cons]; omega)]
        exact hzero
      have hres := ih (j0 + 1) _ (by rw [hstep2len]; exact hlen2) hcs hz2
      rw [show j0 + (c :: cs).length = j0 + 1 + cs.length by (simp only [List.length_cons]; omega)]
      rw [hres]
      congr 1
      simp only [List.length_cons]
      rw [show cs.length + 1 - 1 = (cs.length - 1) + 1 by omega]
      rw [List.getD_cons_succ]

theorem polyFromRoots_monic (p : ℕ) (hp : 1 < p) (roots : List ℤ) :
    polyFromRoots roots p ≠ [] ∧
      (polyFromRoots roots p).getD ((polyFromRoots roots p).length - 1) 0 = 1 := by
  unfold polyFromRoots
  have h : ∀ (rs : List ℤ) (acc : List ℤ), acc ≠ [] →
      acc.getD (acc.length - 1) 0 = 1 →
      (rs.foldl (fun result r =>
          result.enum.foldl (fun nw ic =>
            let nw1 := nw.set ic.1 ((nw.getD ic.1 0 - ic.2 * r) % (p : ℤ))
            nw1.set (ic.1 + 1) ((nw1.getD (ic.1 + 1) 0 + ic.2) % (p : ℤ)))
            (List.replicate (result.length + 1) 0)) acc) ≠ [] ∧
      (rs.foldl (fun result r =>
          result.enum.foldl (fun nw ic =>
            let nw1 := nw.set ic.1 ((nw.getD ic.1 0 - ic.2 * r) % (p : ℤ))
            nw1.set (ic.1 + 1) ((nw1.getD (ic.1 + 1) 0 + ic.2) % (p : ℤ)))
            (List.replicate (result.length + 1) 0)) acc).getD
        ((rs.foldl (fun result r =>
          result.enum.foldl (fun nw ic =>
            let nw1 := nw.set ic.1 ((nw.getD ic.1 0 - ic.2 * r) % (p : ℤ))
            nw1.set (ic.1 + 1) ((nw1.getD (ic.1 + 1) 0 + ic.2) % (p : ℤ)))
            (List.replicate (result.length + 1) 0)) acc).length - 1) 0 = 1 := by
    intro rs
    induction rs with
    | nil => intro acc h1 h2; exact ⟨h1, h2⟩
    | cons r0 rs ih =>
      intro acc h1 h2
      rw [List.foldl_cons]
      apply ih
      · intro hnil
        have hc := congrArg List.length hnil
        rw [list_enum_eq acc, setFold_length _ (fun nw ic => by
            show ((nw.set ic.1 ((nw.getD ic.1 0 - ic.2 * r0) % (p : ℤ))).set (ic.1 + 1)
              _).length = nw.length
            rw [List.length_set, List.length_set]) _ _] at hc
        simp at hc
      · have hlen : (acc.enum.foldl (fun nw ic =>
            let nw1 := nw.set ic.1 ((nw.getD ic.1 0 - ic.2 * r0) % (p : ℤ))
            nw1.set (ic.1 + 1) ((nw1.getD (ic.1 + 1) 0 + ic.2) % (p : ℤ)))
            (List.replicate (acc.length + 1) 0)).length = acc.length + 1 := by
          rw [list_enum_eq acc, setFold_length _ (fun nw ic => by
            show ((nw.set ic.1 ((nw.getD ic.1 0 - ic.2 * r0) % (p : ℤ))).set (ic.1 + 1)
              _).length = nw.length
            rw [List.length_set, List.length_set]) _ _]
          simp
        rw [hlen]
        rw [list_enum_eq acc]
        have hkey := fromRootsFold_getLast p r0 acc 0 (List.replicate (acc.length + 1) 0)
          (by simp) h1 (getD_replicate_zero _ _)
        simp only [Nat.zero_add] at hkey
        rw [show acc.length + 1 - 1 = acc.length by omega]
        rw [hkey, h2]
        rw [Int.emod_eq_of_lt (by omega) (by exact_mod_cast hp)]
        ring

  exact h roots [1] (by simp) (by simp)

theorem polyFromRoots_canonical (p : ℕ) (hp : 1 < p) (roots : List ℤ) :
    Canonical (polyFromRoots roots p) := by
  obtain ⟨h1, h2⟩ := polyFromRoots_monic p hp roots
  exact canonical_of_getLast_ne _ h1 (by rw [h2]; exact one_ne_zero)

/-! ## poly_interpolate and poly_divmod: shape of the returned lists -/

theorem polyInterpolate_canonical (p : ℕ) (xs ys : List ℤ) (out : List ℤ)
    (h : polyInterpolate xs ys p = some out) (hxs : xs ≠ []) : Canonical out := by
  unfold polyInterpolate at h
  rw [Option.bind_eq_bind] at h
  obtain ⟨result, hm, hout⟩ := Option.bind_eq_some.mp h
  simp only [Option.pure_def, Option.some_inj] at hout
  have hlen : result.length = xs.length := by
    refine foldlM_option_preserve (fun l => l.length = xs.length) _
      ?_ (List.range xs.length) _ (by simp) result hm
    intro b i b2 hstep hb
    rw [Option.bind_eq_bind] at hstep
    obtain ⟨basis, _, hb2⟩ := Option.bind_eq_some.mp hstep
    simp only [Option.pure_def, Option.some_inj] at hb2
    rw [← hb2]
    refine foldl_preserve (fun l => l.length = xs.length) _ ?_ _ b hb
    intro r k hr
    by_cases hk : k < r.length
    · simpa [hk, List.length_set] using hr
    · simpa [hk] using hr
  rw [← hout]
  apply stripTrailing_canonical
  intro hnil
  rw [hnil] at hlen
  exact hxs (List.length_eq_zero.mp (by simpa using hlen.symm))

theorem divmodInner_length (b : List ℤ) (p : ℕ) (qi : ℤ) (i ndb : ℕ) (abuf : List ℤ) :
    (divmodInner b p qi i ndb abuf).length = abuf.length :=
  setFold_length _ (fun r j => List.length_set r _ _) _ _

theorem divmodLoop_length (b : List ℤ) (p : ℕ) (binv : ℤ) (ndb : ℕ) :
    ∀ (cnt : ℕ) (abuf q : List ℤ),
      (divmodLoop b p binv ndb cnt abuf q).1.length = abuf.length ∧
      (divmodLoop b p binv ndb cnt abuf q).2.length = q.length := by
  intro cnt
  induction cnt with
  | zero => intro abuf q; exact ⟨rfl, rfl⟩
  | succ n ih =>
    intro abuf q
    rw [divmodLoop]
    obtain ⟨h1, h2⟩ := ih
      (divmodInner b p ((abuf.getD (n + ndb) 0 * binv) % (p : ℤ)) n ndb abuf)
      (q.set n ((abuf.getD (n + ndb) 0 * binv) % (p : ℤ)))
    refine ⟨?_, ?_⟩
    · rw [h1, divmodInner_length]
    · rw [h2, List.length_set]

theorem polyDivmod_canonical (p : ℕ) (a b : List ℤ) (ca : Canonical a)
    (q r : List ℤ) (h : polyDivmod a b p = some (q, r)) :
    Canonical q ∧ Canonical r := by
  unfold polyDivmod at h
  split at h
  · simp only [Option.some_inj, Prod.mk.injEq] at h
    rw [← h.1, ← h.2]
    exact ⟨by decide, ca⟩
  · rename_i hnotlt
    split at h
    · cases h
    · rename_i blead hlast
      split at h
      · cases h
      · rename_i binv hinv
        simp only [Option.some_inj, Prod.mk.injEq] at h
        have hbne : b ≠ [] := fun hb => by rw [hb] at hlast; cases hlast
        have hblen : 0 < b.length := List.length_pos.mpr hbne
        have halen : b.length ≤ a.length := by
          push_neg at hnotlt
          omega
        obtain ⟨hstL1, hstL2⟩ := divmodLoop_length b p binv (b.length - 1)
          (a.length - 1 - (b.length - 1) + 1) a
          (List.replicate (a.length - 1 - (b.length - 1) + 1) 0)
        constructor
        · rw [← h.1]
          apply stripTrailing_canonical
          intro hnil
          have hc := congrArg List.length hnil
          rw [hstL2] at hc
          simp at hc
        · rw [← h.2]
          split
          · rename_i hndb
            apply stripTrailing_canonical
            intro hnil
            have hc := congrArg List.length hnil
            rw [List.length_take, hstL1] at hc
            simp only [List.length_nil] at hc
            omega
          · exact by decide

/-! ## poly_divmod: characterizing the elimination loop -/

theorem getD_set_ne (r : List ℤ) (idx m : ℕ) (w : ℤ) (h : idx ≠ m) :
    (r.set idx w).getD m 0 = r.getD m 0 := by
  by_cases hm : m < r.length
  · rw [List.getD_eq_getElem _ _ (by simpa using hm), List.getD_eq_getElem _ _ hm,
      List.getElem_set_ne h]
  · rw [List.getD_eq_default _ _ (by simpa using le_of_not_lt hm),
      List.getD_eq_default _ _ (le_of_not_lt hm)]

theorem getD_take (b : List ℤ) (m k : ℕ) :
    (b.take m).getD k 0 = if k < m then b.getD k 0 else 0 := by
  by_cases hk : k < m
  · rw [if_pos hk]
    by_cases hkb : k < b.length
    · rw [List.getD_eq_getElem _ _ (by simp [hk, hkb]), List.getD_eq_getElem _ _ hkb]
      exact List.getElem_take _
    · rw [List.getD_eq_default _ _ (by simp; omega),
        List.getD_eq_default _ _ (le_of_not_lt hkb)]
  · rw [if_neg hk]
    exact List.getD_eq_default _ _ (by simp; omega)

theorem toPoly_take_succ (p : ℕ) (b : List ℤ) (n : ℕ) (hn : n < b.length) :
    toPoly p (b.take (n + 1)) = toPoly p (b.take n) +
      Polynomial.C ((b.getD n 0 : ℤ) : ZMod p) * Polynomial.X ^ n := by
  apply Polynomial.ext
  intro k
  rw [Polynomial.coeff_add, toPoly_coeff, toPoly_coeff, Polynomial.coeff_C_mul,
    Polynomial.coeff_X_pow, getD_take, getD_take]
  by_cases hk : k = n
  · subst hk
    rw [if_pos (by omega), if_neg (by omega), if_pos rfl]
    simp
  · rw [if_neg hk, mul_zero, add_zero]
    by_cases hk2 : k < n
    · rw [if_pos (by omega), if_pos hk2]
    · rw [if_neg (by omega), if_neg hk2]

theorem divmodInnerFold_toPoly (p : ℕ) (b : List ℤ) (qi : ℤ) (i : ℕ) :
    ∀ (n : ℕ) (abuf : List ℤ), i + n < abuf.length → n < b.length →
      toPoly p ((List.range (n + 1)).foldl
          (fun ab j => ab.set (i + j) ((ab.getD (i + j) 0 - qi * b.getD j 0) % (p : ℤ)))
          abuf)
        = toPoly p abuf - Polynomial.C ((qi : ℤ) : ZMod p) * Polynomial.X ^ i *
            toPoly p (b.take (n + 1)) := by
  intro n
  induction n with
  | zero =>
    intro abuf hi hn
    rw [List.range_succ, List.range_zero, List.nil_append, List.foldl_cons,
      List.foldl_nil]
    have hsub : abuf.getD (i + 0) 0 - qi * b.getD 0 0
        = abuf.getD (i + 0) 0 + (-(qi * b.getD 0 0)) := by ring
    rw [hsub, toPoly_set_emod p abuf (i + 0) _ (by omega)]
    have htake : toPoly p (b.take 1) = toPoly p (b.take 0) +
        Polynomial.C ((b.getD 0 0 : ℤ) : ZMod p) * Polynomial.X ^ 0 :=
      toPoly_take_succ p b 0 hn
    rw [htake]
    simp only [List.take_zero, toPoly_nil]
    push_cast
    rw [Polynomial.C_neg, Polynomial.C_mul]
    ring
  | succ n ih =>
    intro abuf hi hn
    rw [List.range_succ, List.foldl_append, List.foldl_cons, List.foldl_nil]
    have hlen : ((List.range (n + 1)).foldl
        (fun ab j => ab.set (i + j) ((ab.getD (i + j) 0 - qi * b.getD j 0) % (p : ℤ)))
        abuf).length = abuf.length :=
      setFold_length _ (fun r j => List.length_set r _ _) _ _
    have hsub : ∀ (l : List ℤ), l.getD (i + (n + 1)) 0 - qi * b.getD (n + 1) 0
        = l.getD (i + (n + 1)) 0 + (-(qi * b.getD (n + 1) 0)) := by intro l; ring
    rw [hsub, toPoly_set_emod p _ (i + (n + 1)) _ (by rw [hlen]; omega)]
    rw [ih abuf (by omega) (by omega)]
    rw [toPoly_take_succ p b (n + 1) hn]
    push_cast
    rw [Polynomial.C_neg, Polynomial.C_mul]
    ring

theorem divmodInnerFold_getD_high (p : ℕ) (b : List ℤ) (qi : ℤ) (i : ℕ) :
    ∀ (n : ℕ) (abuf : List ℤ) (m : ℕ), i + n ≤ m →
      ((List.range n).foldl
          (fun ab j => ab.set (i + j) ((ab.getD (i + j) 0 - qi * b.getD j 0) % (p : ℤ)))
          abuf).getD m 0 = abuf.getD m 0 := by
  intro n
  induction n with
  | zero => intro abuf m _; rfl
  | succ n ih =>
    intro abuf m hm
    rw [List.range_succ, List.foldl_append, List.foldl_cons, List.foldl_nil]
    rw [getD_set_ne _ _ _ _ (by omega)]
    exact ih abuf m (by omega)

theorem divmodInnerFold_getD_top (p : ℕ) (b : List ℤ) (qi : ℤ) (i : ℕ) (n : ℕ)
    (abuf : List ℤ) (hi : i + n < abuf.length) :
    ((List.range (n + 1)).foldl
        (fun ab j => ab.set (i + j) ((ab.getD (i + j) 0 - qi * b.getD j 0) % (p : ℤ)))
        abuf).getD (i + n) 0
      = (abuf.getD (i + n) 0 - qi * b.getD n 0) % (p : ℤ) := by
  rw [List.range_succ, List.foldl_append, List.foldl_cons, List.foldl_nil]
  have hlen : ((List.range n).foldl
      (fun ab j => ab.set (i + j) ((ab.getD (i + j) 0 - qi * b.getD j 0) % (p : ℤ)))
      abuf).length = abuf.length :=
    setFold_length _ (fun r j => List.length_set r _ _) _ _
  rw [getD_set_lemma _ (i + n) (i + n) _ (by rw [hlen]; omega), if_pos rfl]
  rw [divmodInnerFold_getD_high p b qi i n abuf (i + n) (le_refl _)]

theorem divmodInner_inRange (p : ℕ) (hp : 0 < p) (b : List ℤ) (qi : ℤ) (i ndb : ℕ)
    (abuf : List ℤ) (h : InRange p abuf) : InRange p (divmodInner b p qi i ndb abuf) :=
  foldl_preserve (InRange p) _
    (fun r j hr => inRange_set_emod p hp r (i + j) _ hr) _ abuf h

theorem emod_eq_zero_of_cast_zero (p : ℕ) (x : ℤ) (h : ((x : ℤ) : ZMod p) = 0) :
    x % (p : ℤ) = 0 := by
  rw [ZMod.intCast_zmod_eq_zero_iff_dvd] at h
  exact Int.emod_eq_zero_of_dvd h

theorem divmodLoop_succ (b : List ℤ) (p : ℕ) (binv : ℤ) (ndb n : ℕ)
    (abuf q : List ℤ) :
    divmodLoop b p binv ndb (n + 1) abuf q =
      divmodLoop b p binv ndb n
        (divmodInner b p ((abuf.getD (n + ndb) 0 * binv) % (p : ℤ)) n ndb abuf)
        (q.set n ((abuf.getD (n + ndb) 0 * binv) % (p : ℤ))) := rfl

theorem divmodLoop_invariant (p : ℕ) (hp : 0 < p) (b : List ℤ) (binv : ℤ) (ndb : ℕ)
    (hndb : ndb = b.length - 1) (hbne : b ≠ [])
    (hbinv : ((binv : ℤ) : ZMod p) * ((b.getD ndb 0 : ℤ) : ZMod p) = 1) :
    ∀ (cnt : ℕ) (abuf q : List ℤ),
      cnt + ndb ≤ abuf.length →
      cnt ≤ q.length →
      InRange p abuf → InRange p q →
      (∀ m, cnt + ndb ≤ m → abuf.getD m 0 = 0) →
      (∀ k, k < cnt → q.getD k 0 = 0) →
      toPoly p (divmodLoop b p binv ndb cnt abuf q).1 +
          (toPoly p (divmodLoop b p binv ndb cnt abuf q).2 - toPoly p q) * toPoly p b
        = toPoly p abuf ∧
      (∀ m, ndb ≤ m → (divmodLoop b p binv ndb cnt abuf q).1.getD m 0 = 0) ∧
      InRange p (divmodLoop b p binv ndb cnt abuf q).1 ∧
      InRange p (divmodLoop b p binv ndb cnt abuf q).2 := by
  intro cnt
  induction cnt with
  | zero =>
    intro abuf q h1 h2 h3 h4 h5 h6
    exact ⟨by rw [show divmodLoop b p binv ndb 0 abuf q = (abuf, q) from rfl]; ring,
      fun m hm => h5 m (by omega), h3, h4⟩
  | succ n ih =>
    intro abuf q h1 h2 h3 h4 h5 h6
    rw [divmodLoop_succ]
    have hbl : ndb + 1 = b.length := by
      have := List.length_pos.mpr hbne
      omega
    have htake : b.take (ndb + 1) = b := by rw [hbl]; exact List.take_length ..
    have hA0lt : n + ndb < abuf.length := by omega
    have habuf1len : (divmodInner b p ((abuf.getD (n + ndb) 0 * binv) % (p : ℤ))
        n ndb abuf).length = abuf.length := divmodInner_length _ _ _ _ _ _
    have hq1 : q.getD n 0 = 0 := h6 n (by omega)
    have hcastqi : (((abuf.getD (n + ndb) 0 * binv) % (p : ℤ) : ℤ) : ZMod p)
        = ((abuf.getD (n + ndb) 0 : ℤ) : ZMod p) * ((binv : ℤ) : ZMod p) := by
      rw [intCast_emod_zmod]
      push_cast
      ring
    have htop : (divmodInner b p ((abuf.getD (n + ndb) 0 * binv) % (p : ℤ))
        n ndb abuf).getD (n + ndb) 0 = 0 := by
      unfold divmodInner
      rw [divmodInnerFold_getD_top p b _ n ndb abuf hA0lt]
      apply emod_eq_zero_of_cast_zero
      push_cast
      calc ((abuf.getD (n + ndb) 0 : ℤ) : ZMod p) -
            ((abuf.getD (n + ndb) 0 : ℤ) : ZMod p) * ((binv : ℤ) : ZMod p) *
              ((b.getD ndb 0 : ℤ) : ZMod p)
          = ((abuf.getD (n + ndb) 0 : ℤ) : ZMod p) * (1 -
              ((binv : ℤ) : ZMod p) * ((b.getD ndb 0 : ℤ) : ZMod p)) := by ring
        _ = 0 := by rw [hbinv]; ring
    obtain ⟨hP, hH, hR1, hR2⟩ := ih
      (divmodInner b p ((abuf.getD (n + ndb) 0 * binv) % (p : ℤ)) n ndb abuf)
      (q.set n ((abuf.getD (n + ndb) 0 * binv) % (p : ℤ)))
      (by rw [habuf1len]; omega)
      (by rw [List.length_set]; omega)
      (divmodInner_inRange p hp b _ n ndb abuf h3)
      (inRange_set_emod p hp q n _ h4)
      (by
        intro m hm
        rcases Nat.eq_or_lt_of_le hm with heq | hlt
        · rw [← heq]
          exact htop
        · unfold divmodInner
          rw [divmodInnerFold_getD_high p b _ n (ndb + 1) abuf m (by omega)]
          exact h5 m (by omega))
      (by
        intro k hk
        rw [getD_set_ne q n k _ (by omega)]
        exact h6 k (by omega))
    refine ⟨?_, hH, hR1, hR2⟩
    have habuf1 : toPoly p (divmodInner b p ((abuf.getD (n + ndb) 0 * binv) % (p : ℤ))
        n ndb abuf) = toPoly p abuf -
          Polynomial.C ((((abuf.getD (n + ndb) 0 * binv) % (p : ℤ) : ℤ) : ZMod p)) *
            Polynomial.X ^ n * toPoly p b := by
      unfold divmodInner
      rw [divmodInnerFold_toPoly p b _ n ndb abuf hA0lt (by omega), htake]
    have hq1p : toPoly p (q.set n ((abuf.getD (n + ndb) 0 * binv) % (p : ℤ)))
        = toPoly p q +
          Polynomial.C (((abuf.getD (n + ndb) 0 * binv : ℤ) : ZMod p)) *
            Polynomial.X ^ n := by
      rw [show (abuf.getD (n + ndb) 0 * binv) % (p : ℤ)
          = (q.getD n 0 + abuf.getD (n + ndb) 0 * binv) % (p : ℤ) by rw [hq1]; ring_nf]
      exact toPoly_set_emod p q n _ (by omega)
    have hcast2 : Polynomial.C ((((abuf.getD (n + ndb) 0 * binv) % (p : ℤ) : ℤ) : ZMod p))
        = Polynomial.C (((abuf.getD (n + ndb) 0 * binv : ℤ) : ZMod p)) := by
      rw [intCast_emod_zmod]
    rw [hcast2] at habuf1
    linear_combination hP + habuf1 + toPoly p b * hq1p

theorem toPoly_single_zero (p : ℕ) : toPoly p [0] = 0 := by
  rw [toPoly_cons, toPoly_nil]
  simp

theorem inRange_single_zero (p : ℕ) (hp : 0 < p) : InRange p [0] := by
  intro x hx
  simp only [List.mem_singleton] at hx
  subst hx
  exact ⟨le_refl 0, by exact_mod_cast hp⟩

theorem polyDivmod_correct (p : ℕ) (hp : p.Prime) (a b : List ℤ)
    (ca : Canonical a) (ra : InRange p a) (cb : Canonical b) (rb : InRange p b)
    (hbz : b ≠ [0]) :
    ∃ q r, polyDivmod a b p = some (q, r) ∧
      toPoly p a = toPoly p q * toPoly p b + toPoly p r ∧
      (toPoly p r).degree < (toPoly p b).degree ∧
      Canonical q ∧ Canonical r ∧ InRange p q ∧ InRange p r := by
  haveI : Fact p.Prime := ⟨hp⟩
  have hbne : b ≠ [] := cb.1
  have hblen : 0 < b.length := List.length_pos.mpr hbne
  have hBdeg := toPoly_degree_canonical p hp.pos b cb rb hbz
  have hlast := canonical_getLast_ne_zero b cb hbz
  have hlastmem := rb _ (List.getLast_mem hbne)
  by_cases hlt : (a.length : ℤ) - 1 < (b.length : ℤ) - 1
  · refine ⟨[0], a, ?_, ?_, ?_, by decide, ca, inRange_single_zero p hp.pos, ra⟩
    · unfold polyDivmod
      rw [if_pos hlt]
    · rw [toPoly_single_zero]
      ring
    · have h1 := toPoly_degree_lt p a
      have h2 : a.length ≤ b.length - 1 := by omega
      calc (toPoly p a).degree < (a.length : WithBot ℕ) := h1
        _ ≤ ((b.length - 1 : ℕ) : WithBot ℕ) := by exact_mod_cast h2
        _ = (toPoly p b).degree := hBdeg.2.1.symm
  · have halen : b.length ≤ a.length := by omega
    have hglast : b.getLast? = some (b.getLast hbne) :=
      List.getLast?_eq_getLast_of_ne_nil hbne
    have hlastnat : 0 < (b.getLast hbne).toNat := by omega
    obtain ⟨y, hy⟩ := pyInvMod_of_prime (b.getLast hbne).toNat p hp
      (by omega) (by omega)
    have hinv : pyInvModInt (b.getLast hbne) p = some (y : ℤ) := by
      unfold pyInvModInt
      rw [Int.emod_eq_of_lt hlastmem.1 hlastmem.2, hy]
      rfl
    have hgetlast : b.getD (b.length - 1) 0 = b.getLast hbne := by
      rw [List.getD_eq_getElem _ _ (by omega), List.getLast_eq_getElem]
    have hmul := pyInvMod_mul _ p y hp.pos hy
    have hylt := pyInvMod_lt _ p y hp.pos hy
    have hbinvc : (((y : ℤ) : ℤ) : ZMod p) * ((b.getD (b.length - 1) 0 : ℤ) : ZMod p)
        = 1 := by
      rw [hgetlast]
      have hcast : (((b.getLast hbne).toNat * y : ℕ) : ZMod p) = ((1 : ℕ) : ZMod p) :=
        (ZMod.natCast_eq_natCast_iff _ _ _).mpr hmul
      have hbc : (((b.getLast hbne).toNat : ℕ) : ZMod p)
          = ((b.getLast hbne : ℤ) : ZMod p) := by
        conv_rhs => rw [← Int.toNat_of_nonneg hlastmem.1]
        push_cast
        rfl
      push_cast at hcast ⊢
      rw [← hbc, mul_comm]
      exact hcast
    obtain ⟨hP, hH, hR1, hR2⟩ := divmodLoop_invariant p hp.pos b (y : ℤ)
      (b.length - 1) rfl hbne hbinvc (a.length - 1 - (b.length - 1) + 1) a
      (List.replicate (a.length - 1 - (b.length - 1) + 1) 0)
      (by omega) (by rw [List.length_replicate]) ra
      (inRange_replicate_zero p hp.pos _)
      (fun m hm => List.getD_eq_default _ _ (by omega))
      (fun k _ => getD_replicate_zero _ _)
    rw [toPoly_replicate_zero, sub_zero] at hP
    obtain ⟨hstL1, hstL2⟩ := divmodLoop_length b p (y : ℤ) (b.length - 1)
      (a.length - 1 - (b.length - 1) + 1) a
      (List.replicate (a.length - 1 - (b.length - 1) + 1) 0)
    rw [List.length_replicate] at hstL2
    have hout : polyDivmod a b p = some
        (stripTrailing (divmodLoop b p (y : ℤ) (b.length - 1)
          (a.length - 1 - (b.length - 1) + 1) a
          (List.replicate (a.length - 1 - (b.length - 1) + 1) 0)).2,
         stripTrailing (if 0 < b.length - 1 then
           (divmodLoop b p (y : ℤ) (b.length - 1)
             (a.length - 1 - (b.length - 1) + 1) a
             (List.replicate (a.length - 1 - (b.length - 1) + 1) 0)).1.take (b.length - 1)
           else [0])) := by
      unfold polyDivmod
      rw [if_neg hlt]
      simp only [hglast, hinv]
    have hremPoly : toPoly p (if 0 < b.length - 1 then
        (divmodLoop b p (y : ℤ) (b.length - 1)
          (a.length - 1 - (b.length - 1) + 1) a
          (List.replicate (a.length - 1 - (b.length - 1) + 1) 0)).1.take (b.length - 1)
        else [0])
        = toPoly p (divmodLoop b p (y : ℤ) (b.length - 1)
          (a.length - 1 - (b.length - 1) + 1) a
          (List.replicate (a.length - 1 - (b.length - 1) + 1) 0)).1 := by
      split
      · apply Polynomial.ext
        intro k
        rw [toPoly_coeff, toPoly_coeff, getD_take]
        by_cases hk : k < b.length - 1
        · rw [if_pos hk]
        · rw [if_neg hk, hH k (by omega)]
      · rw [toPoly_single_zero]
        apply Eq.symm
        apply Polynomial.ext
        intro k
        rw [toPoly_coeff, hH k (by omega)]
        simp
    refine ⟨_, _, hout, ?_, ?_, ?_, ?_, ?_, ?_⟩
    · rw [toPoly_stripTrailing, toPoly_stripTrailing, hremPoly, ← hP]
      ring
    · rw [toPoly_stripTrailing, hremPoly, hBdeg.2.1]
      rw [Polynomial.degree_lt_iff_coeff_zero]
      intro m hm
      rw [toPoly_coeff, hH m hm]
      simp
    · apply stripTrailing_canonical
      intro hnil
      have hc := congrArg List.length hnil
      rw [hstL2] at hc
      simp at hc
    · apply stripTrailing_canonical
      split
      · rename_i hndb
        intro hnil
        have hc := congrArg List.length hnil
        rw [List.length_take, hstL1] at hc
        simp only [List.length_nil] at hc
        omega
      · simp
    · exact inRange_stripTrailing p _ hR2
    · apply inRange_stripTrailing
      split
      · intro x hx
        exact hR1 x (List.mem_of_mem_take hx)
      · exact inRange_single_zero p hp.pos

theorem poly_div_unique (p : ℕ) (hp : p.Prime) (B q1 r1 q2 r2 : Polynomial (ZMod p))
    (hB : B ≠ 0) (h1 : r1.degree < B.degree) (h2 : r2.degree < B.degree)
    (heq : q1 * B + r1 = q2 * B + r2) : q1 = q2 ∧ r1 = r2 := by
  haveI : Fact p.Prime := ⟨hp⟩
  by_cases hq : q1 = q2
  · subst hq
    exact ⟨rfl, by linear_combination heq⟩
  · exfalso
    have h3 : (q1 - q2) * B = r2 - r1 := by linear_combination heq
    have hd1 : B.degree ≤ ((q1 - q2) * B).degree := by
      rw [Polynomial.degree_mul]
      calc B.degree = 0 + B.degree := (zero_add _).symm
        _ ≤ (q1 - q2).degree + B.degree :=
          add_le_add_right (Polynomial.zero_le_degree_iff.mpr (sub_ne_zero.mpr hq)) _
    have hd2 : (r2 - r1).degree < B.degree :=
      lt_of_le_of_lt (Polynomial.degree_sub_le r2 r1) (max_lt h2 h1)
    rw [h3] at hd1
    exact absurd (lt_of_le_of_lt hd1 hd2) (lt_irrefl _)

/-- C3: over a prime modulus, with all coefficients reduced into `[0, p)`,
`a` and `c` canonical, `b` canonical and non-zero, and `deg c < deg b`
(equivalently `len c < len b` for canonical lists),
`poly_divmod(poly_add(poly_mul(a, b, p), c, p), b, p)` returns the
quotient `a` and the remainder `c` exactly. -/
theorem polyDivmod_inverts_polyMul (p : ℕ) (hp : p.Prime) (a b c : List ℤ)
    (ca : Canonical a) (cb : Canonical b) (cc : Canonical c)
    (ra : InRange p a) (rb : InRange p b) (rc : InRange p c)
    (hbz : b ≠ [0]) (hdeg : c.length < b.length) :
    polyDivmod (polyAdd (polyMul a b p) c p) b p = some (a, c) := by
  haveI : Fact p.Prime := ⟨hp⟩
  obtain ⟨hmulLen, hmulPoly, hmulRange⟩ := polyMul_spec p hp.pos a b ca.1 cb.1
  obtain ⟨haddPoly, haddRange, haddCanon⟩ :=
    polyAdd_spec p hp.pos (polyMul a b p) c
  have hmulNe : polyMul a b p ≠ [] := by
    intro hnil
    have hc := congrArg List.length hnil
    rw [hmulLen] at hc
    have := List.length_pos.mpr ca.1
    have := List.length_pos.mpr cb.1
    simp only [List.length_nil] at hc
    omega
  obtain ⟨q, r, hqr, hPoly, hDeg, hq, hr, hqR, hrR⟩ :=
    polyDivmod_correct p hp (polyAdd (polyMul a b p) c p) b
      (haddCanon (fun h => hmulNe h.1)) haddRange cb rb hbz
  have hBdeg := toPoly_degree_canonical p hp.pos b cb rb hbz
  have hcDeg : (toPoly p c).degree < (toPoly p b).degree := by
    rw [hBdeg.2.1]
    calc (toPoly p c).degree < (c.length : WithBot ℕ) := toPoly_degree_lt p c
      _ ≤ ((b.length - 1 : ℕ) : WithBot ℕ) := by
        have hcb : c.length ≤ b.length - 1 := by omega
        exact_mod_cast hcb
  have hA : toPoly p (polyAdd (polyMul a b p) c p)
      = toPoly p a * toPoly p b + toPoly p c := by
    rw [haddPoly, hmulPoly]
  rw [hA] at hPoly
  obtain ⟨hqa, hrc⟩ := poly_div_unique p hp (toPoly p b) (toPoly p q) (toPoly p r)
    (toPoly p a) (toPoly p c) hBdeg.2.2 hDeg hcDeg hPoly.symm
  have hqeq : q = a := toPoly_inj p hp.pos q a hq ca hqR ra hqa
  have hreq : r = c := toPoly_inj p hp.pos r c hr cc hrR rc hrc
  rw [hqr, hqeq, hreq]

theorem polyDivmod_inverts_polyMul_witness :
    polyDivmod (polyAdd (polyMul [2, 3] [4, 5] 7) [6] 7) [4, 5] 7 = some ([2, 3], [6]) :=
  polyDivmod_inverts_polyMul 7 (by norm_num) [2, 3] [4, 5] [6]
    (by decide) (by decide) (by decide) (by unfold InRange; decide)
    (by unfold InRange; decide) (by unfold InRange; decide)
    (by decide) (by decide)

/-- C5 (amended): over a prime modulus `p`, with canonical inputs whose
coefficients are reduced into `[0, p)`: `poly_add`, `poly_sub`,
`poly_from_roots`, both components of a succeeding `poly_divmod`,
`poly_interpolate` on a non-empty sample list, and `poly_mul` of two
non-zero canonical polynomials all return canonical results.  The two
exceptions forced by the counterexample: `poly_mul` with the canonical
zero `[0]` against a polynomial of length ≥ 2 returns a non-canonical
all-zero list, and `poly_interpolate` on an empty sample list returns the
non-canonical `[]`. -/
theorem canonical_invariant (p : ℕ) (hp : p.Prime) :
    (∀ a b : List ℤ, Canonical a → Canonical b → Canonical (polyAdd a b p)) ∧
    (∀ a b : List ℤ, Canonical a → Canonical b → Canonical (polySub a b p)) ∧
    (∀ a b : List ℤ, Canonical a → Canonical b → InRange p a → InRange p b →
      a ≠ [0] → b ≠ [0] → Canonical (polyMul a b p)) ∧
    (∀ a b q r : List ℤ, Canonical a → polyDivmod a b p = some (q, r) →
      Canonical q ∧ Canonical r) ∧
    (∀ roots : List ℤ, Canonical (polyFromRoots roots p)) ∧
    (∀ xs ys out : List ℤ, xs ≠ [] → polyInterpolate xs ys p = some out →
      Canonical out) := by
  refine ⟨?_, ?_, ?_, ?_, ?_, ?_⟩
  · intro a b ca cb
    exact (polyAdd_spec p hp.pos a b).2.2 (fun h => ca.1 h.1)
  · intro a b ca cb
    exact (polySub_spec p hp.pos a b).2.2 (fun h => ca.1 h.1)
  · intro a b ca cb ra rb ha hb
    exact polyMul_canonical p hp a b ca cb ra rb ha hb
  · intro a b q r ca h
    exact polyDivmod_canonical p a b ca q r h
  · intro roots
    exact polyFromRoots_canonical p hp.one_lt roots
  · intro xs ys out hxs h
    exact polyInterpolate_canonical p xs ys out h hxs

theorem canonical_invariant_witness :
    Canonical (polyAdd [1, 2] [3] 7) ∧ Canonical (polySub [1] [2, 5] 7) ∧
      Canonical (polyMul [1, 2] [3, 4] 7) ∧ Canonical (polyFromRoots [2, 3] 7) := by
  obtain ⟨hadd, hsub, hmul, hdiv, hroots, hinterp⟩ := canonical_invariant 7 (by norm_num)
  exact ⟨hadd [1, 2] [3] (by decide) (by decide),
    hsub [1] [2, 5] (by decide) (by decide),
    hmul [1, 2] [3, 4] (by decide) (by decide) (by unfold InRange; decide)
      (by unfold InRange; decide) (by decide) (by decide),
    hroots [2, 3]⟩

/-! ## mod_sqrt: cast and Euler-criterion plumbing -/

theorem powMod_cast (p n k : ℕ) : ((powMod n k p : ℕ) : ZMod p) = ((n : ZMod p)) ^ k := by
  unfold powMod
  rw [ZMod.natCast_mod]
  push_cast
  rfl

theorem powMod_lt (p n k : ℕ) (hp : 0 < p) : powMod n k p < p :=
  Nat.mod_lt _ hp

theorem natCast_inj_lt (p x y : ℕ) (hx : x < p) (hy : y < p)
    (h : ((x : ℕ) : ZMod p) = ((y : ℕ) : ZMod p)) : x = y := by
  have h1 := ZMod.val_cast_of_lt hx
  have h2 := ZMod.val_cast_of_lt hy
  rw [← h1, ← h2, h]

theorem natCast_toNat_zmod (p : ℕ) (x : ℤ) (h : 0 ≤ x) :
    ((x.toNat : ℕ) : ZMod p) = ((x : ℤ) : ZMod p) := by
  conv_rhs => rw [← Int.toNat_of_nonneg h]
  push_cast
  rfl

theorem natCast_pred_zmod (p : ℕ) (hp : 0 < p) :
    (((p - 1 : ℕ) : ℕ) : ZMod p) = -1 := by
  have h : ((p - 1 : ℕ) : ZMod p) + ((1 : ℕ) : ZMod p) = ((p : ℕ) : ZMod p) := by
    rw [← Nat.cast_add]
    congr 1
    omega
  rw [ZMod.natCast_self] at h
  push_cast at h
  linear_combination h

theorem half_pred (p : ℕ) (hodd : p % 2 = 1) : p / 2 = (p - 1) / 2 := by omega

theorem euler_pow_check (p n0 : ℕ) (hp : p.Prime) (hn : 0 < n0) (hlt : n0 < p) :
    (powMod n0 ((p - 1) / 2) p = 1 ↔ ((n0 : ℕ) : ZMod p) ^ ((p - 1) / 2) = 1) := by
  haveI : Fact p.Prime := ⟨hp⟩
  constructor
  · intro h
    rw [← powMod_cast, h]
    exact Nat.cast_one
  · intro h
    refine natCast_inj_lt p _ 1 (powMod_lt p _ _ hp.pos) hp.one_lt ?_
    rw [powMod_cast, h, Nat.cast_one]

theorem euler_square_iff (p n0 : ℕ) (hp : p.Prime) (hodd : p % 2 = 1)
    (hn : 0 < n0) (hlt : n0 < p) :
    (IsSquare ((n0 : ℕ) : ZMod p) ↔ powMod n0 ((p - 1) / 2) p = 1) := by
  haveI : Fact p.Prime := ⟨hp⟩
  have hne : ((n0 : ℕ) : ZMod p) ≠ 0 := by
    rw [Ne, ZMod.natCast_zmod_eq_zero_iff_dvd]
    intro hdvd
    exact absurd (Nat.le_of_dvd hn hdvd) (not_le.mpr hlt)
  rw [euler_pow_check p n0 hp hn hlt, ← half_pred p hodd]
  exact ZMod.euler_criterion p hne

theorem euler_neg_one (p : ℕ) (hp : p.Prime) (hodd : p % 2 = 1) (a : ZMod p)
    (ha : a ≠ 0) (hnsq : ¬IsSquare a) : a ^ (p / 2) = -1 := by
  haveI : Fact p.Prime := ⟨hp⟩
  have h1 : a ^ (p / 2) * a ^ (p / 2) = 1 := by
    rw [← pow_add]
    have h2 : p / 2 + p / 2 = p - 1 := by omega
    rw [h2]
    exact ZMod.pow_card_sub_one_eq_one ha
  rcases mul_self_eq_one_iff.mp h1 with h | h
  · exact absurd ((ZMod.euler_criterion p ha).mpr h) hnsq
  · exact h

theorem zmod_two_ne_zero (p : ℕ) (hp : p.Prime) (hodd : p % 2 = 1) :
    ((2 : ℕ) : ZMod p) ≠ 0 := by
  haveI : Fact p.Prime := ⟨hp⟩
  rw [Ne, ZMod.natCast_zmod_eq_zero_iff_dvd]
  intro hdvd
  have h2 := (Nat.prime_dvd_prime_iff_eq hp Nat.prime_two).mp hdvd
  omega

/-! ## mod_sqrt: the two closed-form branches -/

theorem sqrt_three_mod_four (p n0 : ℕ) (hp : p.Prime) (h4 : p % 4 = 3)
    (heuler : ((n0 : ℕ) : ZMod p) ^ ((p - 1) / 2) = 1) :
    (((powMod n0 ((p + 1) / 4) p : ℕ) : ZMod p)) ^ 2 = ((n0 : ℕ) : ZMod p) := by
  rw [powMod_cast, ← pow_mul]
  have h1 : (p + 1) / 4 * 2 = (p - 1) / 2 + 1 := by omega
  rw [h1, pow_succ, heuler, one_mul]

theorem atkin_algebra {K : Type} [Field K] (nc vc : K)
    (hic : (2 * nc * vc ^ 2) ^ 2 = -1) :
    (nc * vc * (2 * nc * vc ^ 2 - 1)) ^ 2 = nc := by
  linear_combination (nc ^ 2 * vc ^ 2 - nc) * hic

theorem two_nonsquare_of_five_mod_eight (p : ℕ) (hp : p.Prime) (h8 : p % 8 = 5) :
    ¬IsSquare ((2 : ℕ) : ZMod p) := by
  haveI : Fact p.Prime := ⟨hp⟩
  intro hsq
  have h2 : ((2 : ℕ) : ZMod p) = (2 : ZMod p) := by push_cast; rfl
  rw [h2, ZMod.exists_sq_eq_two_iff (by omega : p ≠ 2)] at hsq
  omega

theorem twon_nonsquare (p n0 : ℕ) (hp : p.Prime) (hodd : p % 2 = 1) (h8 : p % 8 = 5)
    (hn : 0 < n0) (hlt : n0 < p)
    (heuler : ((n0 : ℕ) : ZMod p) ^ ((p - 1) / 2) = 1) :
    ¬IsSquare (((2 * n0 : ℕ) : ℕ) : ZMod p) := by
  haveI : Fact p.Prime := ⟨hp⟩
  have hnne : ((n0 : ℕ) : ZMod p) ≠ 0 := by
    rw [Ne, ZMod.natCast_zmod_eq_zero_iff_dvd]
    intro hdvd
    exact absurd (Nat.le_of_dvd hn hdvd) (not_le.mpr hlt)
  have hnsq : IsSquare ((n0 : ℕ) : ZMod p) :=
    (ZMod.euler_criterion p hnne).mpr (by rw [half_pred p hodd]; exact heuler)
  intro hsq
  obtain ⟨s, hs⟩ := hsq
  obtain ⟨r, hr⟩ := hnsq
  have hrne : r ≠ 0 := by
    intro h0
    rw [h0, mul_zero] at hr
    exact hnne hr
  apply two_nonsquare_of_five_mod_eight p hp h8
  refine ⟨s * r⁻¹, ?_⟩
  have hcast2 : ((2 * n0 : ℕ) : ZMod p) = ((2 : ℕ) : ZMod p) * ((n0 : ℕ) : ZMod p) := by
    push_cast
    ring
  field_simp
  rw [← hr, ← hs, hcast2]
  push_cast
  ring

theorem sqrt_five_mod_eight (p n0 : ℕ) (hp : p.Prime) (hodd : p % 2 = 1)
    (h8 : p % 8 = 5) (hn : 0 < n0) (hlt : n0 < p)
    (heuler : ((n0 : ℕ) : ZMod p) ^ ((p - 1) / 2) = 1) :
    ((((n0 * powMod (2 * n0) ((p - 5) / 8) p : ℕ) : ℤ) *
        (((2 * n0 * powMod (2 * n0) ((p - 5) / 8) p * powMod (2 * n0) ((p - 5) / 8) p
          % p : ℕ) : ℤ) - 1) % (p : ℤ)).toNat : ZMod p) ^ 2 = ((n0 : ℕ) : ZMod p) := by
  haveI : Fact p.Prime := ⟨hp⟩
  have hnne : ((n0 : ℕ) : ZMod p) ≠ 0 := by
    rw [Ne, ZMod.natCast_zmod_eq_zero_iff_dvd]
    intro hdvd
    exact absurd (Nat.le_of_dvd hn hdvd) (not_le.mpr hlt)
  have h2ne : ((2 : ℕ) : ZMod p) ≠ 0 := zmod_two_ne_zero p hp hodd
  have hwcast : ((2 * n0 : ℕ) : ZMod p) = 2 * ((n0 : ℕ) : ZMod p) := by
    push_cast
    ring
  have hwne : ((2 * n0 : ℕ) : ZMod p) ≠ 0 := by
    rw [hwcast]
    exact mul_ne_zero (by
      intro h0
      apply h2ne
      push_cast
      exact h0) hnne
  have hwpow : (((2 * n0 : ℕ) : ZMod p)) ^ ((p - 1) / 2) = -1 := by
    have h1 := euler_neg_one p hp hodd _ hwne
      (twon_nonsquare p n0 hp hodd h8 hn hlt heuler)
    rwa [half_pred p hodd] at h1
  obtain ⟨k, hk⟩ : ∃ k, p = 8 * k + 5 := ⟨p / 8, by omega⟩
  have hexp : (p - 5) / 8 = k := by omega
  have hic : (2 * ((n0 : ℕ) : ZMod p) *
      ((((2 * n0 : ℕ) : ZMod p)) ^ ((p - 5) / 8)) ^ 2) ^ 2 = -1 := by
    have h1 : 2 * ((n0 : ℕ) : ZMod p) *
        ((((2 * n0 : ℕ) : ZMod p)) ^ ((p - 5) / 8)) ^ 2
        = (((2 * n0 : ℕ) : ZMod p)) ^ (2 * ((p - 5) / 8) + 1) := by
      rw [hwcast, ← pow_mul, pow_succ, pow_mul]
      ring
    rw [h1, ← pow_mul]
    have h2 : (2 * ((p - 5) / 8) + 1) * 2 = (p - 1) / 2 := by omega
    rw [h2, hwpow]
  have hcast : (((((n0 * powMod (2 * n0) ((p - 5) / 8) p : ℕ) : ℤ) *
      (((2 * n0 * powMod (2 * n0) ((p - 5) / 8) p * powMod (2 * n0) ((p - 5) / 8) p
        % p : ℕ) : ℤ) - 1) % (p : ℤ)).toNat : ℕ) : ZMod p)
      = ((n0 : ℕ) : ZMod p) * (((2 * n0 : ℕ) : ZMod p)) ^ ((p - 5) / 8) *
        (2 * ((n0 : ℕ) : ZMod p) *
          ((((2 * n0 : ℕ) : ZMod p)) ^ ((p - 5) / 8)) ^ 2 - 1) := by
    rw [natCast_toNat_zmod p _ (Int.emod_nonneg _ (by exact_mod_cast hp.pos.ne'))]
    rw [intCast_emod_zmod]
    push_cast
    simp only [powMod_cast]
    push_cast
    ring
  rw [hcast]
  exact atkin_algebra _ _ hic

/-! ## mod_sqrt: Tonelli–Shanks set-up loops -/

theorem factorTwo_spec : ∀ q : ℕ, 0 < q →
    q = (factorTwo q).1 * 2 ^ (factorTwo q).2 ∧ (factorTwo q).1 % 2 = 1 := by
  intro q
  induction q using Nat.strong_induction_on with
  | _ q ih =>
    intro hq
    rw [factorTwo]
    by_cases h : q ≠ 0 ∧ q % 2 = 0
    · rw [dif_pos h]
      show q = (factorTwo (q / 2)).1 * 2 ^ ((factorTwo (q / 2)).2 + 1) ∧
        (factorTwo (q / 2)).1 % 2 = 1
      obtain ⟨h1, h2⟩ := ih (q / 2) (Nat.div_lt_self hq one_lt_two) (by omega)
      refine ⟨?_, h2⟩
      rw [pow_succ, ← mul_assoc, ← h1]
      omega
    · rw [dif_neg h]
      exact ⟨by simp, by omega⟩

theorem findZ_finds (p : ℕ) :
    ∀ (fuel z : ℕ), (∃ d < fuel, powMod (z + d) ((p - 1) / 2) p = p - 1) →
      ∃ z1, findZ p fuel z = some z1 ∧ powMod z1 ((p - 1) / 2) p = p - 1 := by
  intro fuel
  induction fuel with
  | zero => intro z h; obtain ⟨d, hd, _⟩ := h; omega
  | succ f ih =>
    intro z h
    rw [findZ]
    by_cases hz : powMod z ((p - 1) / 2) p = p - 1
    · rw [if_pos hz]
      exact ⟨z, rfl, hz⟩
    · rw [if_neg hz]
      obtain ⟨d, hd, hcond⟩ := h
      have hd0 : d ≠ 0 := by
        intro h0
        rw [h0, Nat.add_zero] at hcond
        exact hz hcond
      exact ih (z + 1) ⟨d - 1, by omega, by
        rw [show z + 1 + (d - 1) = z + d by omega]
        exact hcond⟩

theorem nonresidue_exists (p : ℕ) (hp : p.Prime) (hodd : p % 2 = 1) :
    ∃ d < p, powMod (2 + d) ((p - 1) / 2) p = p - 1 := by
  haveI : Fact p.Prime := ⟨hp⟩
  have hchar : ringChar (ZMod p) ≠ 2 := by
    rw [ZMod.ringChar_zmod_n]
    omega
  obtain ⟨a, ha⟩ := FiniteField.exists_nonsquare hchar
  have hane : a ≠ 0 := by
    intro h0
    exact ha (by rw [h0]; exact ⟨0, by ring⟩)
  have haval : ((a.val : ℕ) : ZMod p) = a := ZMod.natCast_rightInverse a
  have hvlt : a.val < p := ZMod.val_lt a
  have hv0 : a.val ≠ 0 := by
    intro h0
    apply hane
    rw [← haval, h0, Nat.cast_zero]
  have hv1 : a.val ≠ 1 := by
    intro h1
    apply ha
    rw [← haval, h1, Nat.cast_one]
    exact isSquare_one
  have hpow : a ^ ((p - 1) / 2) = -1 := by
    have h3 := euler_neg_one p hp hodd a hane ha
    rwa [half_pred p hodd] at h3
  refine ⟨a.val - 2, by omega, ?_⟩
  rw [show 2 + (a.val - 2) = a.val by omega]
  apply natCast_inj_lt p _ _ (powMod_lt _ _ _ hp.pos) (by omega)
  rw [powMod_cast, haval, hpow, natCast_pred_zmod p hp.pos]

theorem tsInner_spec (p : ℕ) (hp : 1 < p) (tc : ZMod p) :
    ∀ (fuel i0 tmp0 : ℕ), tmp0 < p → ((tmp0 : ℕ) : ZMod p) = tc ^ (2 ^ i0) →
      (∃ d < fuel, tc ^ (2 ^ (i0 + d)) = 1) →
      ∃ i1, tsInner p fuel tmp0 i0 = some i1 ∧ i0 ≤ i1 ∧ tc ^ (2 ^ i1) = 1 ∧
        ∀ e, i0 ≤ e → e < i1 → tc ^ (2 ^ e) ≠ 1 := by
  intro fuel
  induction fuel with
  | zero =>
    intro i0 tmp0 _ _ h
    obtain ⟨d, hd, _⟩ := h
    omega
  | succ f ih =>
    intro i0 tmp0 hlt hcast hex
    rw [tsInner]
    by_cases h1 : tmp0 = 1
    · rw [if_pos h1]
      refine ⟨i0, rfl, le_refl _, ?_, fun e he1 he2 => absurd he1 (by omega)⟩
      rw [← hcast, h1, Nat.cast_one]
    · rw [if_neg h1]
      have hne : tc ^ (2 ^ i0) ≠ 1 := by
        rw [← hcast]
        intro hcc
        exact h1 (natCast_inj_lt p tmp0 1 hlt hp (by rw [hcc, Nat.cast_one]))
      obtain ⟨d, hd, hcond⟩ := hex
      have hd0 : d ≠ 0 := fun h0 => hne (by rw [← hcond, h0, Nat.add_zero])
      obtain ⟨i1, heq, hle, hone, hmin⟩ := ih (i0 + 1) (tmp0 * tmp0 % p)
        (Nat.mod_lt _ (by omega))
        (by
          rw [ZMod.natCast_mod]
          push_cast
          rw [hcast, pow_succ, pow_mul]
          ring)
        ⟨d - 1, by omega, by
          rw [show i0 + 1 + (d - 1) = i0 + d by omega]
          exact hcond⟩
      refine ⟨i1, heq, by omega, hone, ?_⟩
      intro e he1 he2
      rcases Nat.eq_or_lt_of_le he1 with he | he
      · rw [← he]
        exact hne
      · exact hmin e (by omega) he2

theorem tsLoop_correct (p : ℕ) (hp : p.Prime) (hodd : p % 2 = 1) (nc : ZMod p) :
    ∀ m : ℕ, ∀ fuel c t r : ℕ, m ≤ fuel → c < p → t < p → r < p → 1 ≤ m →
      ((c : ℕ) : ZMod p) ^ (2 ^ (m - 1)) = -1 →
      ((t : ℕ) : ZMod p) ^ (2 ^ (m - 1)) = 1 →
      ((r : ℕ) : ZMod p) ^ 2 = nc * ((t : ℕ) : ZMod p) →
      ∃ res, tsLoop p fuel m c t r = some res ∧ res < p ∧
        ((res : ℕ) : ZMod p) ^ 2 = nc := by
  haveI : Fact p.Prime := ⟨hp⟩
  intro m
  induction m using Nat.strong_induction_on with
  | _ m ih =>
    intro fuel c t r hfuel hc hlt hr hm hcinv htinv hrinv
    obtain ⟨f, hf⟩ : ∃ f, fuel = f + 1 := ⟨fuel - 1, by omega⟩
    subst hf
    by_cases ht1 : t = 1
    · refine ⟨r, ?_, hr, ?_⟩
      · rw [tsLoop, if_pos ht1]
      · rw [hrinv, ht1, Nat.cast_one, mul_one]
    · have htne : ((t : ℕ) : ZMod p) ≠ 1 := by
        intro hcc
        exact ht1 (natCast_inj_lt p t 1 hlt hp.one_lt (by rw [hcc, Nat.cast_one]))
      have hm2 : 2 ≤ m := by
        by_contra hmlt
        have hm1 : m = 1 := by omega
        rw [hm1] at htinv
        simp at htinv
        exact htne htinv
      obtain ⟨i1, hinner, hi1ge, hi1one, hi1min⟩ := tsInner_spec p hp.one_lt
        ((t : ℕ) : ZMod p) m 1 (t * t % p) (Nat.mod_lt _ hp.pos)
        (by
          rw [ZMod.natCast_mod]
          push_cast
          ring)
        ⟨m - 2, by omega, by
          rw [show 1 + (m - 2) = m - 1 by omega]
          exact htinv⟩
      have hi1le : i1 ≤ m - 1 := by
        by_contra hgt
        exact hi1min (m - 1) (by omega) (by omega) htinv
      have hstep : tsLoop p (f + 1) m c t r = tsLoop p f i1
          (powMod c (2 ^ (m - i1 - 1)) p * powMod c (2 ^ (m - i1 - 1)) p % p)
          (t * powMod c (2 ^ (m - i1 - 1)) p * powMod c (2 ^ (m - i1 - 1)) p % p)
          (r * powMod c (2 ^ (m - i1 - 1)) p % p) := by
        rw [tsLoop, if_neg ht1, hinner]
      have hpow2 : ∀ j : ℕ, 1 ≤ j → 2 ^ (j - 1) + 2 ^ (j - 1) = 2 ^ j := by
        intro j hj
        have h2 : 2 ^ j = 2 ^ (j - 1) * 2 := by
          rw [← pow_succ]
          congr 1
          omega
        omega
      have htprevne : ((t : ℕ) : ZMod p) ^ (2 ^ (i1 - 1)) ≠ 1 := by
        rcases Nat.eq_or_lt_of_le hi1ge with he | he
        · rw [← he]
          simpa using htne
        · exact hi1min (i1 - 1) (by omega) (by omega)
      have htprev : ((t : ℕ) : ZMod p) ^ (2 ^ (i1 - 1)) = -1 := by
        have hsq : ((t : ℕ) : ZMod p) ^ (2 ^ (i1 - 1)) *
            ((t : ℕ) : ZMod p) ^ (2 ^ (i1 - 1)) = 1 := by
          rw [← pow_add, hpow2 i1 hi1ge]
          exact hi1one
        rcases mul_self_eq_one_iff.mp hsq with h | h
        · exact absurd h htprevne
        · exact h
      have hbcast : ((powMod c (2 ^ (m - i1 - 1)) p : ℕ) : ZMod p)
          = ((c : ℕ) : ZMod p) ^ (2 ^ (m - i1 - 1)) := powMod_cast p c _
      have hexpc : 2 ^ (m - i1 - 1) * 2 * 2 ^ (i1 - 1) = 2 ^ (m - 1) := by
        rw [mul_assoc, ← pow_succ', ← pow_add]
        congr 1
        omega
      obtain ⟨res, hres, hreslt, hressq⟩ := ih i1 (by omega) f
        (powMod c (2 ^ (m - i1 - 1)) p * powMod c (2 ^ (m - i1 - 1)) p % p)
        (t * powMod c (2 ^ (m - i1 - 1)) p * powMod c (2 ^ (m - i1 - 1)) p % p)
        (r * powMod c (2 ^ (m - i1 - 1)) p % p)
        (by omega) (Nat.mod_lt _ hp.pos) (Nat.mod_lt _ hp.pos) (Nat.mod_lt _ hp.pos)
        hi1ge
        (by
          rw [ZMod.natCast_mod]
          push_cast
          rw [hbcast, ← pow_add, hpow2 (m - i1) (by omega), ← pow_mul]
          rw [show 2 ^ (m - i1) * 2 ^ (i1 - 1) = 2 ^ (m - 1) by
            rw [← pow_add]
            congr 1
            omega]
          exact hcinv)
        (by
          rw [ZMod.natCast_mod]
          push_cast
          rw [hbcast, mul_pow, mul_pow, ← pow_mul]
          rw [show 2 ^ (m - i1 - 1) * 2 ^ (i1 - 1) = 2 ^ (m - 2) by
            rw [← pow_add]
            congr 1
            omega]
          rw [htprev, mul_assoc]
          have hc2 : ((c : ℕ) : ZMod p) ^ 2 ^ (m - 2) * ((c : ℕ) : ZMod p) ^ 2 ^ (m - 2)
              = -1 := by
            rw [← pow_add]
            have h4 := hpow2 (m - 1) (by omega)
            rw [show m - 1 - 1 = m - 2 by omega] at h4
            rw [h4]
            exact hcinv
          rw [hc2]
          norm_num)
        (by
          rw [ZMod.natCast_mod]
          push_cast
          rw [hbcast, mul_pow, hrinv, ZMod.natCast_mod]
          push_cast
          rw [hbcast]
          ring)
      refine ⟨res, ?_, hreslt, hressq⟩
      rw [hstep]
      exact hres

/-! ## mod_sqrt: assembling the branches -/

theorem root_mod_spec (p r n : ℕ) (hp : 0 < p)
    (h : ((r : ℕ) : ZMod p) ^ 2 = ((n : ℕ) : ZMod p)) : r * r % p = n % p := by
  apply natCast_inj_lt p _ _ (Nat.mod_lt _ hp) (Nat.mod_lt _ hp)
  rw [ZMod.natCast_mod, ZMod.natCast_mod]
  push_cast
  rw [← h]
  ring

theorem modSqrt_zero_case (fuel n p : ℕ) (hn0 : n % p = 0) :
    modSqrt fuel n p = some (some 0) := by
  unfold modSqrt
  rw [if_pos hn0]

theorem modSqrt_reject_case (fuel n p : ℕ) (hn0 : n % p ≠ 0)
    (heul : powMod (n % p) ((p - 1) / 2) p ≠ 1) :
    modSqrt fuel n p = some none := by
  unfold modSqrt
  rw [if_neg hn0, if_pos heul]

theorem modSqrt_branch34 (fuel n p : ℕ) (hn0 : n % p ≠ 0)
    (heul : powMod (n % p) ((p - 1) / 2) p = 1) (h4 : p % 4 = 3) :
    modSqrt fuel n p = some (some (powMod (n % p) ((p + 1) / 4) p)) := by
  unfold modSqrt
  rw [if_neg hn0, if_neg (not_not_intro heul), if_pos h4]

theorem modSqrt_branch85 (fuel n p : ℕ) (hn0 : n % p ≠ 0)
    (heul : powMod (n % p) ((p - 1) / 2) p = 1) (h4 : p % 4 ≠ 3) (h8 : p % 8 = 5) :
    modSqrt fuel n p = some (some ((((n % p * powMod (2 * (n % p)) ((p - 5) / 8) p : ℕ) : ℤ) *
        (((2 * (n % p) * powMod (2 * (n % p)) ((p - 5) / 8) p *
           powMod (2 * (n % p)) ((p - 5) / 8) p % p : ℕ) : ℤ) - 1) % (p : ℤ)).toNat)) := by
  unfold modSqrt
  rw [if_neg hn0, if_neg (not_not_intro heul), if_neg h4, if_pos h8]

theorem modSqrt_branchTS (fuel n p : ℕ) (hn0 : n % p ≠ 0)
    (heul : powMod (n % p) ((p - 1) / 2) p = 1) (h4 : p % 4 ≠ 3) (h8 : p % 8 ≠ 5)
    (z res : ℕ) (hfz : findZ p fuel 2 = some z)
    (htl : tsLoop p fuel (factorTwo (p - 1)).2 (powMod z (factorTwo (p - 1)).1 p)
      (powMod (n % p) (factorTwo (p - 1)).1 p)
      (powMod (n % p) (((factorTwo (p - 1)).1 + 1) / 2) p) = some res) :
    modSqrt fuel n p = some (some res) := by
  unfold modSqrt
  rw [if_neg hn0, if_neg (not_not_intro heul), if_neg h4, if_neg h8]
  simp only [hfz, htl]

theorem modSqrt_main (n p : ℕ) (hp : p.Prime) (hodd : p % 2 = 1) :
    (IsSquare ((n : ℕ) : ZMod p) →
      ∃ r, modSqrt p n p = some (some r) ∧ r < p ∧ r * r % p = n % p) ∧
    (¬IsSquare ((n : ℕ) : ZMod p) → modSqrt p n p = some none) := by
  haveI : Fact p.Prime := ⟨hp⟩
  have hb : ∀ z : ℤ, (z % (p : ℤ)).toNat < p := by
    intro z
    have h1 := Int.emod_nonneg z (show ((p : ℤ)) ≠ 0 by exact_mod_cast hp.pos.ne')
    have h2 := Int.emod_lt_of_pos z (show (0 : ℤ) < (p : ℤ) by exact_mod_cast hp.pos)
    omega
  have hcastn : ((n : ℕ) : ZMod p) = (((n % p : ℕ) : ℕ) : ZMod p) :=
    (ZMod.natCast_mod n p).symm
  by_cases hn0 : n % p = 0
  · constructor
    · intro _
      refine ⟨0, modSqrt_zero_case p n p hn0, hp.pos, by simp [hn0]⟩
    · intro hnsq
      exfalso
      apply hnsq
      rw [hcastn, hn0]
      exact ⟨0, by push_cast; ring⟩
  · have hn0pos : 0 < n % p := Nat.pos_of_ne_zero hn0
    have hn0lt : n % p < p := Nat.mod_lt _ hp.pos
    have hiff := euler_square_iff p (n % p) hp hodd hn0pos hn0lt
    by_cases heul : powMod (n % p) ((p - 1) / 2) p = 1
    · have hsq : IsSquare ((n : ℕ) : ZMod p) := by
        rw [hcastn]
        exact hiff.mpr heul
      have heulc : (((n % p : ℕ) : ℕ) : ZMod p) ^ ((p - 1) / 2) = 1 :=
        (euler_pow_check p (n % p) hp hn0pos hn0lt).mp heul
      refine ⟨fun _ => ?_, fun hnsq => absurd hsq hnsq⟩
      by_cases h4 : p % 4 = 3
      · refine ⟨powMod (n % p) ((p + 1) / 4) p,
          modSqrt_branch34 p n p hn0 heul h4, powMod_lt p _ _ hp.pos, ?_⟩
        apply root_mod_spec p _ n hp.pos
        rw [hcastn]
        exact sqrt_three_mod_four p (n % p) hp h4 heulc
      · by_cases h8 : p % 8 = 5
        · refine ⟨_, modSqrt_branch85 p n p hn0 heul h4 h8, hb _, ?_⟩
          apply root_mod_spec p _ n hp.pos
          rw [hcastn]
          exact sqrt_five_mod_eight p (n % p) hp hodd h8 hn0pos hn0lt heulc
        · obtain ⟨z, hfz, hzcond⟩ := findZ_finds p p 2 (nonresidue_exists p hp hodd)
          obtain ⟨hfact, hqodd⟩ := factorTwo_spec (p - 1) (by omega)
          have hs1 : 1 ≤ (factorTwo (p - 1)).2 := by
            by_contra hs0
            have h0 : (factorTwo (p - 1)).2 = 0 := by omega
            rw [h0, pow_zero, mul_one] at hfact
            omega
          have h2s : (2 : ℕ) ^ (factorTwo (p - 1)).2 =
              2 ^ ((factorTwo (p - 1)).2 - 1) * 2 := by
            rw [← pow_succ]
            congr 1
            omega
          have hq1 : 1 ≤ (factorTwo (p - 1)).1 := by
            rcases Nat.eq_zero_or_pos (factorTwo (p - 1)).1 with h0 | h1
            · rw [h0] at hqodd
              simp at hqodd
            · exact h1
          have hhalf : (factorTwo (p - 1)).1 * 2 ^ ((factorTwo (p - 1)).2 - 1)
              = (p - 1) / 2 := by
            have hx : p - 1 =
                (factorTwo (p - 1)).1 * 2 ^ ((factorTwo (p - 1)).2 - 1) * 2 := by
              conv_lhs => rw [hfact]
              rw [h2s]
              ring
            omega
          have hslt : (factorTwo (p - 1)).2 ≤ p := by
            have ha := Nat.lt_two_pow (factorTwo (p - 1)).2
            have hb : 2 ^ (factorTwo (p - 1)).2 ≤ p - 1 := by
              calc 2 ^ (factorTwo (p - 1)).2
                  ≤ (factorTwo (p - 1)).1 * 2 ^ (factorTwo (p - 1)).2 :=
                    Nat.le_mul_of_pos_left _ hq1
                _ = p - 1 := hfact.symm
            omega
          have hzpow : (((z : ℕ) : ZMod p)) ^ ((p - 1) / 2) = -1 := by
            have hc := congrArg (fun x : ℕ => ((x : ℕ) : ZMod p)) hzcond
            simp only [powMod_cast] at hc
            rw [hc, natCast_pred_zmod p hp.pos]
          have hcinit : ((powMod z (factorTwo (p - 1)).1 p : ℕ) : ZMod p) ^
              (2 ^ ((factorTwo (p - 1)).2 - 1)) = -1 := by
            rw [powMod_cast, ← pow_mul, hhalf]
            exact hzpow
          have htinit : ((powMod (n % p) (factorTwo (p - 1)).1 p : ℕ) : ZMod p) ^
              (2 ^ ((factorTwo (p - 1)).2 - 1)) = 1 := by
            rw [powMod_cast, ← pow_mul, hhalf]
            exact heulc
          have hrinit : ((powMod (n % p) (((factorTwo (p - 1)).1 + 1) / 2) p : ℕ) : ZMod p) ^ 2
              = (((n % p : ℕ) : ℕ) : ZMod p) *
                ((powMod (n % p) (factorTwo (p - 1)).1 p : ℕ) : ZMod p) := by
            rw [powMod_cast, powMod_cast, ← pow_mul]
            rw [show ((factorTwo (p - 1)).1 + 1) / 2 * 2 = (factorTwo (p - 1)).1 + 1 by
              omega]
            rw [pow_succ]
            ring
          obtain ⟨res, htl, hreslt, hressq⟩ := tsLoop_correct p hp hodd
            (((n % p : ℕ) : ℕ) : ZMod p) (factorTwo (p - 1)).2 p
            (powMod z (factorTwo (p - 1)).1 p)
            (powMod (n % p) (factorTwo (p - 1)).1 p)
            (powMod (n % p) (((factorTwo (p - 1)).1 + 1) / 2) p)
            hslt (powMod_lt _ _ _ hp.pos) (powMod_lt _ _ _ hp.pos)
            (powMod_lt _ _ _ hp.pos) hs1 hcinit htinit hrinit
          refine ⟨res, modSqrt_branchTS p n p hn0 heul h4 h8 z res hfz htl, hreslt, ?_⟩
          apply root_mod_spec p _ n hp.pos
          rw [hcastn]
          exact hressq
    · refine ⟨fun hsq => ?_, fun _ => modSqrt_reject_case p n p hn0 heul⟩
      exfalso
      apply heul
      apply hiff.mp
      rw [← hcastn]
      exact hsq

/-- C1: for every odd prime p, `mod_sqrt(n, p)` returns a root r with
r² ≡ n (mod p) whenever n is a square mod p, returns None when n mod p is a
non-residue, and the branch follows p mod 8: r = n^((p+1)/4) when p ≡ 3
(mod 4), the Atkin-style formula r = (n·v·(i−1)) mod p with
v = (2n)^((p−5)/8), i = 2nv² mod p when p ≡ 5 (mod 8), and full
Tonelli–Shanks otherwise (fuel p suffices). -/
theorem modSqrt_correct (n p : ℕ) (hp : p.Prime) (hodd : p % 2 = 1) :
    (IsSquare ((n : ℕ) : ZMod p) →
      ∃ r, modSqrt p n p = some (some r) ∧ r * r % p = n % p) ∧
    (¬IsSquare ((n : ℕ) : ZMod p) → modSqrt p n p = some none) ∧
    (p % 4 = 3 → n % p ≠ 0 → powMod (n % p) ((p - 1) / 2) p = 1 →
      modSqrt p n p = some (some (powMod (n % p) ((p + 1) / 4) p))) ∧
    (p % 8 = 5 → n % p ≠ 0 → powMod (n % p) ((p - 1) / 2) p = 1 →
      modSqrt p n p = some (some ((((n % p * powMod (2 * (n % p)) ((p - 5) / 8) p : ℕ) : ℤ) *
        (((2 * (n % p) * powMod (2 * (n % p)) ((p - 5) / 8) p *
           powMod (2 * (n % p)) ((p - 5) / 8) p % p : ℕ) : ℤ) - 1) % (p : ℤ)).toNat))) := by
  obtain ⟨hsq, hnsq⟩ := modSqrt_main n p hp hodd
  refine ⟨fun h => ((hsq h).imp fun r hr => ⟨hr.1, hr.2.2⟩), hnsq, ?_, ?_⟩
  · intro h4 hn0 heul
    exact modSqrt_branch34 p n p hn0 heul h4
  · intro h8 hn0 heul
    exact modSqrt_branch85 p n p hn0 heul (by omega) h8

theorem modSqrt_correct_witness :
    ∃ r, modSqrt 3 1 3 = some (some r) ∧ r * r % 3 = 1 % 3 :=
  (modSqrt_correct 1 3 (by norm_num) (by decide)).1 ⟨1, by decide⟩

/-- C10: `mod_sqrt` terminates for every odd prime p: within fuel p the
non-residue search succeeds and the Tonelli–Shanks main loop exits, so the
embedding never runs out of fuel (never returns `none`). -/
theorem modSqrt_terminates (n p : ℕ) (hp : p.Prime) (hodd : p % 2 = 1) :
    (modSqrt p n p).isSome = true := by
  obtain ⟨hsq, hnsq⟩ := modSqrt_main n p hp hodd
  by_cases h : IsSquare ((n : ℕ) : ZMod p)
  · obtain ⟨r, hr, -, -⟩ := hsq h
    rw [hr]
    rfl
  · rw [hnsq h]
    rfl

theorem modSqrt_terminates_witness : (modSqrt 17 2 17).isSome = true :=
  modSqrt_terminates 2 17 (by norm_num) (by decide)

/-! ## decode_point_bytes: coordinate bounds -/

theorem modSqrt_root_lt (n p y0 : ℕ) (hp : p.Prime) (hodd : p % 2 = 1)
    (h : modSqrt p n p = some (some y0)) : y0 < p := by
  obtain ⟨hsq, hnsq⟩ := modSqrt_main n p hp hodd
  by_cases hs : IsSquare ((n : ℕ) : ZMod p)
  · obtain ⟨r, hr, hrlt, -⟩ := hsq hs
    rw [h] at hr
    simp only [Option.some.injEq] at hr
    omega
  · rw [hnsq hs] at h
    simp at h

/-- C6 counterexample: with modulus 7, curve y² = x³ + 6, the byte string
encoding x = 1 with the parity bit set decodes to the pair (1, 7): the
curve right-hand side is ≡ 0, mod_sqrt returns the root 0, and the parity
flip computes y = p − 0 = p, which is not reduced (y < 7 fails). -/
theorem decode_y_eq_modulus_counterexample :
    decodePointBytes (1 :: (List.replicate 30 0 ++ [128])) 7 0 6 = some (some (1, 7)) ∧
      ¬((7 : ℕ) < 7) := by
  constructor
  · decide
  · decide

/-- C6 (amended): for an odd prime modulus, every pair (x, y) returned by
`decode_point_bytes` has x < M and y ≤ M; the x coordinate is always
reduced, but y can equal M itself (exactly when the square root is 0 and
the parity bit forces the flip y = M − 0), so only the weaker bound y ≤ M
holds. -/
theorem decode_coordinates_bounded (raw : List ℕ) (pf : ℕ) (a bc : ℤ)
    (hp : pf.Prime) (hodd : pf % 2 = 1) (x y : ℕ)
    (h : decodePointBytes raw pf a bc = some (some (x, y))) :
    x < pf ∧ y ≤ pf := by
  unfold decodePointBytes at h
  by_cases hz : raw.all (· = 0)
  · rw [if_pos hz] at h
    simp at h
  · rw [if_neg hz] at h
    by_cases hx : pf ≤ leVal (raw.set 31 (raw.getD 31 0 % 128))
    · rw [if_pos hx] at h
      simp at h
    · rw [if_neg hx] at h
      simp only [] at h
      split at h
      · exact absurd h (by simp)
      · exact absurd h (by simp)
      · rename_i y0 heq
        simp only [Option.some.injEq, Prod.mk.injEq] at h
        obtain ⟨hx0, hy0⟩ := h
        have hylt := modSqrt_root_lt _ pf y0 hp hodd heq
        constructor
        · omega
        · rw [← hy0]
          split <;> omega

theorem decode_coordinates_bounded_witness : (1 : ℕ) < 7 ∧ (7 : ℕ) ≤ 7 :=
  decode_coordinates_bounded (1 :: (List.replicate 30 0 ++ [128])) 7 0 6 (by norm_num)
    (by decide) 1 7 (by decide)

/-! ## encode_point ∘ decode_point_bytes round trip -/

theorem toLeBytes_leVal : ∀ (l : List ℕ), (∀ b ∈ l, b < 256) →
    toLeBytes (leVal l) l.length = l := by
  intro l
  induction l with
  | nil => intro _; rfl
  | cons b bs ih =>
    intro hb
    have hb256 : b < 256 := hb b (List.mem_cons_self b bs)
    have h1 : (b + 256 * leVal bs) % 256 = b := by omega
    have h2 : (b + 256 * leVal bs) / 256 = leVal bs := by omega
    simp only [leVal, List.length_cons, toLeBytes, h1, h2]
    rw [ih (fun c hc => hb c (List.mem_cons_of_mem b hc))]

theorem set_getD_self : ∀ (l : List ℕ) (i : ℕ), l.set i (l.getD i 0) = l := by
  intro l
  induction l with
  | nil => intro i; rfl
  | cons x xs ih =>
    intro i
    cases i with
    | zero => rfl
    | succ j =>
      simp only [List.getD_cons_succ, List.set_cons_succ, List.cons.injEq]
      exact ⟨trivial, ih j⟩

theorem getD_set_self : ∀ (l : List ℕ) (i c : ℕ), i < l.length →
    (l.set i c).getD i 0 = c := by
  intro l
  induction l with
  | nil => intro i c h; simp at h
  | cons x xs ih =>
    intro i c h
    cases i with
    | zero => rfl
    | succ j =>
      simp only [List.set_cons_succ, List.getD_cons_succ]
      refine ih j c ?_
      simp only [List.length_cons] at h
      omega

theorem getD_mem_of_lt : ∀ (l : List ℕ) (i : ℕ), i < l.length → l.getD i 0 ∈ l := by
  intro l
  induction l with
  | nil => intro i h; simp at h
  | cons x xs ih =>
    intro i h
    cases i with
    | zero => exact List.mem_cons_self x xs
    | succ j =>
      simp only [List.getD_cons_succ]
      refine List.mem_cons_of_mem x (ih j ?_)
      simp only [List.length_cons] at h
      omega

theorem lor128 : ∀ m : ℕ, m < 128 → m ||| 128 = m + 128 := by
  have h : ∀ m : Fin 128, ((m : ℕ) ||| 128 = (m : ℕ) + 128) := by decide
  intro m hm
  exact h ⟨m, hm⟩

theorem all_zero_eq_replicate : ∀ (l : List ℕ), l.all (· = 0) = true →
    l = List.replicate l.length 0 := by
  intro l
  induction l with
  | nil => intro _; rfl
  | cons x xs ih =>
    intro h
    simp only [List.all_cons, Bool.and_eq_true, decide_eq_true_eq] at h
    simp only [List.length_cons, List.replicate_succ]
    exact congrArg₂ List.cons h.1 (ih h.2)

/-- C2: for every 32-byte buffer of bytes < 256 that is a valid encoding —
the all-zero identity encoding, or one whose x value (top bit of the last
byte cleared) is below the odd prime modulus and whose curve right-hand
side is a quadratic residue — re-encoding the decoded point reproduces the
buffer exactly: the parity bit stored in bit 7 of byte 31 is always
recovered, so no alternate-encoding exclusion is even needed. -/
theorem decode_encode_roundtrip (raw : List ℕ) (pf : ℕ) (a bc : ℤ)
    (hp : pf.Prime) (hodd : pf % 2 = 1)
    (hlen : raw.length = 32) (hbytes : ∀ b ∈ raw, b < 256)
    (hvalid : raw.all (· = 0) = true ∨
      (leVal (raw.set 31 (raw.getD 31 0 % 128)) < pf ∧
        IsSquare ((((((powMod (leVal (raw.set 31 (raw.getD 31 0 % 128))) 3 pf : ℕ) : ℤ) +
          a * ((leVal (raw.set 31 (raw.getD 31 0 % 128)) : ℕ) : ℤ) + bc) % (pf : ℤ)).toNat :
            ZMod pf)))) :
    ∃ res, decodePointBytes raw pf a bc = some res ∧ encodeDec pf res = raw := by
  by_cases hz : raw.all (· = 0)
  · refine ⟨none, ?_, ?_⟩
    · unfold decodePointBytes
      rw [if_pos hz]
    · have h := all_zero_eq_replicate raw hz
      rw [hlen] at h
      exact h.symm
  · rcases hvalid with hv | ⟨hxlt, hsqr⟩
    · exact absurd hv hz
    · obtain ⟨hsqf, -⟩ := modSqrt_main
        (((((powMod (leVal (raw.set 31 (raw.getD 31 0 % 128))) 3 pf : ℕ) : ℤ) +
          a * ((leVal (raw.set 31 (raw.getD 31 0 % 128)) : ℕ) : ℤ) + bc) % (pf : ℤ)).toNat)
        pf hp hodd
      obtain ⟨r, hms, hrlt, -⟩ := hsqf hsqr
      refine ⟨some (leVal (raw.set 31 (raw.getD 31 0 % 128)),
        if r % 2 ≠ raw.getD 31 0 / 128 % 2 then pf - r else r), ?_, ?_⟩
      · unfold decodePointBytes
        rw [if_neg hz, if_neg (by omega : ¬ pf ≤ leVal (raw.set 31 (raw.getD 31 0 % 128)))]
        simp only [hms]
      · have h31 : 31 < raw.length := by omega
        have hb31 : raw.getD 31 0 < 256 := hbytes _ (getD_mem_of_lt raw 31 h31)
        have hset_len : (raw.set 31 (raw.getD 31 0 % 128)).length = 32 := by
          simp [hlen]
        have hset_bytes : ∀ b ∈ raw.set 31 (raw.getD 31 0 % 128), b < 256 := by
          intro b hbm
          rcases List.mem_or_eq_of_mem_set hbm with hmem | rfl
          · exact hbytes b hmem
          · omega
        have hxb : toLeBytes (leVal (raw.set 31 (raw.getD 31 0 % 128))) 32
            = raw.set 31 (raw.getD 31 0 % 128) := by
          have h := toLeBytes_leVal (raw.set 31 (raw.getD 31 0 % 128)) hset_bytes
          rwa [hset_len] at h
        have hpar2 : raw.getD 31 0 / 128 % 2 < 2 := Nat.mod_lt _ (by omega)
        have hymod : (if r % 2 ≠ raw.getD 31 0 / 128 % 2 then pf - r else r) % 2
            = raw.getD 31 0 / 128 % 2 := by
          split
          · rename_i hc
            omega
          · rename_i hc
            omega
        simp only [encodeDec, encodePoint]
        rw [hxb]
        by_cases hpar : raw.getD 31 0 / 128 % 2 = 1
        · rw [if_pos (show (if r % 2 ≠ raw.getD 31 0 / 128 % 2 then pf - r else r) % 2 = 1 by
            rw [hymod, hpar])]
          have hge : 128 ≤ raw.getD 31 0 := by omega
          rw [getD_set_self raw 31 _ h31]
          rw [lor128 _ (Nat.mod_lt _ (by omega))]
          rw [List.set_set]
          rw [show raw.getD 31 0 % 128 + 128 = raw.getD 31 0 by omega]
          exact set_getD_self raw 31
        · rw [if_neg (show ¬ (if r % 2 ≠ raw.getD 31 0 / 128 % 2 then pf - r else r) % 2 = 1 by
            rw [hymod]; exact hpar)]
          rw [show raw.getD 31 0 % 128 = raw.getD 31 0 by omega]
          exact set_getD_self raw 31

theorem decode_encode_roundtrip_witness :
    ∃ res, decodePointBytes (1 :: List.replicate 31 0) 7 0 1 = some res ∧
      encodeDec 7 res = 1 :: List.replicate 31 0 :=
  decode_encode_roundtrip (1 :: List.replicate 31 0) 7 0 1 (by norm_num) (by decide)
    (by decide) (by decide) (Or.inr ⟨by decide, ⟨3, by decide⟩⟩)
